import Mathlib

/-!
# Verification of the `combiner` signature-file merger

Shallow embedding of `src/combiner/combiner.py`: the program walks a
directory, parses each file as XML, pairs every `InternalSignature` with
the `FileFormat` record referencing it, renumbers all accepted pairings
with globally sequential identifiers, and emits one merged signature
document.

Modelling conventions (the model boundary):

* A parsed document (`XmlDoc`) is abstracted by the tag of its first
  child (the code reads `doc.firstChild.tagName`; documents whose first
  child is not an element are outside this model), the list of
  `InternalSignatureCollection` elements found by
  `getElementsByTagName` (each abstracted to the list of its
  `InternalSignature` descendants, in document order), and likewise the
  `FileFormatCollection` elements.
* An `InternalSignature` element is abstracted to its `ID` attribute
  and an opaque `payload` standing for all untouched substructure; a
  `FileFormat` element to its `ID` and `PUID` attributes, the node
  value of its `InternalSignatureID` child (always present in this
  model; the code indexes it unconditionally), and a `payload`.
* Attribute values are strings; a text-node value (`NodeValue`) is a
  string or an integer, because `split_xml` assigns the Python `int`
  `idx` to `firstChild.nodeValue`.  Serialisation renders either with
  `"%s"`, modelled by `NodeValue.render`.
* DOM elements are mutable objects in Python.  `InternalSignature`
  nodes are never aliased (each occurs in at most one pairing), so they
  are modelled as values.  A `FileFormat` node can be selected by two
  pairings (when two InternalSignatures carry the same `ID`), so the
  per-file `FileFormat` node list is threaded as a store, pairings
  refer to nodes by position, and a node entering the merged document
  is identified by the pair (index of its accepted file, position):
  `minidom.appendChild` moves a node that already has a parent, so
  appending the same node twice keeps only the last occurrence
  (`dom_append_child`).
* `manifest.sort()` sorts path strings by code points; Python's sort is
  stable, modelled by insertion sort with the lexicographic comparator
  `path_le`.
* Exceptions: only `xml.parsers.expat.ExpatError` is caught
  (`SigFile.malformed`).  `AttributeError` from `doc.firstChild.tagName`
  when the document's first node is a comment, processing instruction or
  doctype rather than the root element (`SigFile.preamble`),
  `IndexError` from indexing an empty collection list and
  `AssertionError` from the pairing check propagate and abort the run
  (`Exn`, `RunOutcome.aborted`).
* Logging is modelled by the ordered list of `LogEvent`s the run emits;
  the wall-clock timestamp is an explicit parameter `now` reaching only
  the `DateCreated` attribute.
-/

/-- Value of a DOM text node or attribute: `split_xml` writes a Python
`int` into `firstChild.nodeValue`, everything else is a string. -/
inductive NodeValue where
  | str (s : String)
  | int (n : Int)
  deriving DecidableEq, Inhabited

/-- How minidom serialises a node value (`"%s" % value`). -/
def NodeValue.render : NodeValue → String
  | NodeValue.str s => s
  | NodeValue.int n => toString n

/-- An `InternalSignature` element: its `ID` attribute and opaque
untouched substructure. -/
structure InternalSig where
  id : String
  payload : Nat
  deriving DecidableEq, Inhabited

/-- A `FileFormat` element: `ID` and `PUID` attributes, the node value
of its `InternalSignatureID` child, and opaque substructure. -/
structure FileFormat where
  id : String
  puid : String
  internalSignatureID : NodeValue
  payload : Nat
  deriving DecidableEq, Inhabited

/-- A parsed input document: tag of `doc.firstChild`, and the results
of `doc.getElementsByTagName` for the two collection tags, each
collection abstracted to its `InternalSignature` / `FileFormat`
descendants in document order. -/
structure XmlDoc where
  rootTag : String
  sigColls : List (List InternalSig)
  ffColls : List (List FileFormat)
  deriving DecidableEq, Inhabited

/-- One manifest file as the loader sees it: malformed XML
(`ExpatError`), well-formed XML whose first child node is a comment,
processing instruction or doctype rather than the root element (so
`doc.firstChild` has no `tagName` and the attribute access raises
`AttributeError`), or a document whose first child is its root
element. -/
inductive SigFile where
  | malformed
  | preamble
  | parsed (doc : XmlDoc)
  deriving DecidableEq, Inhabited

/-- Uncaught exceptions: `AttributeError` from `doc.firstChild.tagName`
on a non-element first child, `IndexError` from `coll[0]` on an empty
`getElementsByTagName` result, `AssertionError` from
`assert len(matches) == 1`. -/
inductive Exn where
  | indexError
  | assertionError
  | attributeError
  deriving DecidableEq

/-- Log events emitted by `process_paths` / `create_new_sig_file`, in
order.  `errorCannotProcess` is error level, the others info level. -/
inductive LogEvent where
  | errorCannotProcess (path : String)
  | infoNoFiles
  | infoProcessed (n : Nat)
  | infoItems (n : Nat)
  deriving DecidableEq

/-- A `FileFormat` node held in `sig_list`: object identity is the pair
(index of its accepted file, position in that file's node list), `val`
is the node's state after renumbering (final, since later files mutate
only their own parse). -/
structure FFNode where
  fileIdx : Nat
  pos : Nat
  val : FileFormat
  deriving DecidableEq, Inhabited

/-- Object identity of a `FileFormat` node. -/
def FFNode.key (n : FFNode) : Nat × Nat := (n.fileIdx, n.pos)

/-- The merged output document built by `create_new_sig_file`: root
attributes and the two child collections, children in append order. -/
structure MergedDoc where
  xmlns : String
  version : String
  dateCreated : String
  internalSigs : List InternalSig
  fileFormats : List FileFormat
  deriving DecidableEq

/-- Result of one run of `process_paths`: uncaught exception, the
"no signature files were processed" exit, or a merged document. -/
inductive RunOutcome where
  | aborted (e : Exn) (logs : List LogEvent)
  | noOutput (logs : List LogEvent)
  | merged (logs : List LogEvent) (doc : MergedDoc)
  deriving DecidableEq

/-- `get_matches`: the `FileFormat` nodes (position-tagged) whose
`InternalSignatureID` child's node value equals `identifier`.  The code
skips an item when `value != identifier`; a Python `int` node value
never equals a string. -/
def get_matches (node_list : List (Nat × FileFormat)) (identifier : String) :
    List (Nat × FileFormat) :=
  node_list.filter (fun item => item.2.internalSignatureID == NodeValue.str identifier)

/-- The pairing loop of `split_xml`: for each `InternalSignature` in
document order, `assert len(matches) == 1` and keep `matches[0]`
(identified by its position).  The failed assertion is an uncaught
`AssertionError`. -/
def pair_signatures (file_formats : List (Nat × FileFormat)) :
    List InternalSig → Except Exn (List (InternalSig × Nat))
  | [] => Except.ok []
  | item :: rest =>
    match get_matches file_formats item.id with
    | [m] =>
      match pair_signatures file_formats rest with
      | Except.error e => Except.error e
      | Except.ok tail => Except.ok ((item, m.1) :: tail)
    | _ => Except.error Exn.assertionError

/-- The renumbering loop of `split_xml`: for each pairing, in order,
`idx = len(identifiers) + start_index` is appended to `identifiers`,
the signature's `ID`, the format node's `ID` and `PUID`, and the format
node's `InternalSignatureID` child are rewritten in place.  `store` is
the file's `FileFormat` node list (mutations write through positions);
the returned list is `ret`. -/
def renumber_pairs (pfx : String) (start_index : Int) :
    List (InternalSig × Nat) → List FileFormat → List Int →
    List (InternalSig × Nat) × List FileFormat × List Int
  | [], store, identifiers => ([], store, identifiers)
  | (sig, pos) :: rest, store, identifiers =>
    let idx : Int := (identifiers.length : Int) + start_index
    let sig' : InternalSig := { sig with id := toString idx }
    let ff := store.getD pos default
    let ff' : FileFormat :=
      { ff with
        id := toString idx
        puid := pfx ++ "/" ++ toString idx
        internalSignatureID := NodeValue.int idx }
    let r := renumber_pairs pfx start_index rest (store.set pos ff') (identifiers ++ [idx])
    ((sig', pos) :: r.1, r.2.1, r.2.2)

/-- `split_xml`: index the first element of each collection list
(`IndexError` when empty), reject the file with `(None, [])` when the
collection sizes differ — note this returns a fresh empty `identifiers`
list — otherwise pair and renumber.  The middle component is the file's
`FileFormat` node store after mutation. -/
def split_xml (internal_sig_coll : List (List InternalSig))
    (file_format_coll : List (List FileFormat))
    (identifiers : List Int) (pfx : String) (start_index : Int) :
    Except Exn (Option (List (InternalSig × Nat)) × List FileFormat × List Int) :=
  match internal_sig_coll with
  | [] => Except.error Exn.indexError
  | internal_signatures :: _ =>
    match file_format_coll with
    | [] => Except.error Exn.indexError
    | file_formats :: _ =>
      if internal_signatures.length ≠ file_formats.length then
        Except.ok (none, file_formats, [])
      else
        match pair_signatures file_formats.enum internal_signatures with
        | Except.error e => Except.error e
        | Except.ok pairings =>
          let r := renumber_pairs pfx start_index pairings file_formats identifiers
          Except.ok (some r.1, r.2.1, r.2.2)

/-- Loop state of `process_paths`: accepted pairings (`sig_list`, the
format node resolved to its final value and tagged with its identity),
the shared `identifiers` list, the count of accepted files
(`len(processed)`; the code appends indices and only reads the
length), and the log so far. -/
structure LoopState where
  sig_list : List (InternalSig × FFNode)
  identifiers : List Int
  processed : Nat
  logs : List LogEvent
  deriving DecidableEq

/-- One iteration of the `process_paths` loop over a manifest entry:
malformed XML is caught and logged at error level; a well-formed file
whose first child is not an element raises `AttributeError` at
`doc.firstChild.tagName`, which nothing catches; a root tag other
than `FFSignatureFile` is skipped silently; `split_xml` exceptions
propagate (aborting the run with the state as it stood); a falsy result
(`None` or the empty list) is logged at error level and skipped;
otherwise the pairings are appended and the file counted. -/
def process_one (pfx : String) (start_index : Int) (path : String) :
    SigFile → LoopState → Except (Exn × LoopState) LoopState
  | SigFile.malformed, st =>
    Except.ok { st with logs := st.logs ++ [LogEvent.errorCannotProcess path] }
  | SigFile.preamble, st => Except.error (Exn.attributeError, st)
  | SigFile.parsed doc, st =>
    if doc.rootTag = "FFSignatureFile" then
      match split_xml doc.sigColls doc.ffColls st.identifiers pfx start_index with
      | Except.error e => Except.error (e, st)
      | Except.ok (res, store, identifiers') =>
        match res with
        | none =>
          Except.ok { st with
            identifiers := identifiers'
            logs := st.logs ++ [LogEvent.errorCannotProcess path] }
        | some ret =>
          if ret.isEmpty then
            Except.ok { st with
              identifiers := identifiers'
              logs := st.logs ++ [LogEvent.errorCannotProcess path] }
          else
            Except.ok { st with
              sig_list := st.sig_list ++
                ret.map (fun pr => (pr.1, FFNode.mk st.processed pr.2 (store.getD pr.2 default)))
              identifiers := identifiers'
              processed := st.processed + 1 }
    else
      Except.ok st

/-- The `for idx, item in enumerate(manifest)` loop. -/
def process_loop (pfx : String) (start_index : Int) :
    List (String × SigFile) → LoopState → Except (Exn × LoopState) LoopState
  | [], st => Except.ok st
  | (path, file) :: rest, st =>
    match process_one pfx start_index path file st with
    | Except.error e => Except.error e
    | Except.ok st' => process_loop pfx start_index rest st'

/-- Lexicographic (code-point) comparison of character lists, the order
Python uses to compare path strings. -/
def charListLe : List Char → List Char → Bool
  | [], _ => true
  | _ :: _, [] => false
  | a :: as, b :: bs => if a < b then true else if b < a then false else charListLe as bs

/-- Python's `<=` on path strings. -/
def path_le (a b : String) : Bool := charListLe a.data b.data

/-- `manifest.sort()`: Python's stable sort by the lexicographic order
on paths, modelled by (stable) insertion sort. -/
def sort_manifest (manifest : List (String × SigFile)) : List (String × SigFile) :=
  List.insertionSort (fun a b => path_le a.1 b.1 = true) manifest

/-- `minidom`'s `appendChild` on the output collection: a node that
already has a parent is first removed from it, so re-appending a node
already in `children` moves it to the end. -/
def dom_append_child (children : List FFNode) (n : FFNode) : List FFNode :=
  children.eraseP (fun m => m.key == n.key) ++ [n]

/-- `create_new_sig_file`: split `sigs` into the two collections and
build the output document.  `InternalSignature` nodes are pairwise
distinct objects in every call the orchestrator makes (each parsed
element enters at most one pairing), so appending them never relocates
one; `FileFormat` nodes go through `dom_append_child`.  `now` is the
timestamp `get_utc_timestamp_now()` returns at merge time. -/
def create_new_sig_file (sigs : List (InternalSig × FFNode)) (now : String) :
    List LogEvent × MergedDoc :=
  let internal_sigs := sigs.map Prod.fst
  let file_formats := sigs.map Prod.snd
  ([LogEvent.infoItems sigs.length],
   { xmlns := "http://www.nationalarchives.gov.uk/pronom/SignatureFile"
     version := "1"
     dateCreated := now
     internalSigs := internal_sigs
     fileFormats := (file_formats.foldl dom_append_child []).map FFNode.val })

/-- `process_paths`: sort the manifest, run the loop, and either abort
(uncaught exception), log "no signature files were processed", or log
the accepted-file count and build the merged document. -/
def process_paths (manifest : List (String × SigFile)) (pfx : String)
    (start_index : Int) (now : String) : RunOutcome :=
  match process_loop pfx start_index (sort_manifest manifest) (LoopState.mk [] [] 0 []) with
  | Except.error (e, st) => RunOutcome.aborted e st.logs
  | Except.ok st =>
    if st.sig_list.length = 0 then
      RunOutcome.noOutput (st.logs ++ [LogEvent.infoNoFiles])
    else
      let r := create_new_sig_file st.sig_list now
      RunOutcome.merged (st.logs ++ [LogEvent.infoProcessed st.processed] ++ r.1) r.2

/-- Logs of a run, whatever its outcome. -/
def run_logs : RunOutcome → List LogEvent
  | RunOutcome.aborted _ logs => logs
  | RunOutcome.noOutput logs => logs
  | RunOutcome.merged logs _ => logs

/-- The uncaught exception of an aborted run. -/
def run_exn : RunOutcome → Option Exn
  | RunOutcome.aborted e _ => some e
  | _ => none

/-- `ID` attributes of the output `InternalSignature`s, in document
order, when the run produced output. -/
def run_sig_ids : RunOutcome → Option (List String)
  | RunOutcome.merged _ doc => some (doc.internalSigs.map InternalSig.id)
  | _ => none

/-- Payloads of the output `FileFormat`s, in document order. -/
def run_ff_payloads : RunOutcome → Option (List Nat)
  | RunOutcome.merged _ doc => some (doc.fileFormats.map FileFormat.payload)
  | _ => none

/-- For each output `FileFormat`, how many output `InternalSignature`s
its rendered back-reference matches. -/
def run_backref_counts : RunOutcome → Option (List Nat)
  | RunOutcome.merged _ doc =>
    some (doc.fileFormats.map (fun ff =>
      (doc.internalSigs.filter
        (fun s => s.id == ff.internalSignatureID.render)).length))
  | _ => none

/-- The run outcome with the `DateCreated` timestamp blanked, for the
determinism statement. -/
def erase_date : RunOutcome → RunOutcome
  | RunOutcome.merged logs doc => RunOutcome.merged logs { doc with dateCreated := "" }
  | o => o

/-- `[base, base + 1, ..., base + n - 1]`: the identifiers a block of
`n` consecutive renumbering steps assigns starting at `base`. -/
def idsFrom (base : Int) : Nat → List Int
  | 0 => []
  | n + 1 => base :: idsFrom (base + 1) n

/-- Closed form of the `ret` list built by `renumber_pairs`: the `i`-th
pairing's signature gets `ID` `toString (base + i)`, positions are
kept. -/
def renumber_ret (base : Int) : List (InternalSig × Nat) → List (InternalSig × Nat)
  | [] => []
  | (sig, pos) :: rest =>
    ({ sig with id := toString base }, pos) :: renumber_ret (base + 1) rest

/-- A file `split_xml` rejects with `(None, [])`: parsed, root tag
`FFSignatureFile`, both collection lists non-empty, and the two first
collections differ in size. -/
def is_mismatch_file : SigFile → Bool
  | SigFile.malformed => false
  | SigFile.preamble => false
  | SigFile.parsed doc =>
    (doc.rootTag = "FFSignatureFile") &&
      (match doc.sigColls, doc.ffColls with
       | sigs :: _, ffs :: _ => sigs.length != ffs.length
       | _, _ => false)

/-- No string occurs twice. -/
def distinctStrings : List String → Bool
  | [] => true
  | x :: xs => (!xs.contains x) && distinctStrings xs

/-- The `ID` attributes of the first `InternalSignatureCollection`'s
signatures are pairwise distinct (vacuously true for files the pairer
never reaches). -/
def has_distinct_sig_ids : SigFile → Bool
  | SigFile.malformed => true
  | SigFile.preamble => true
  | SigFile.parsed doc =>
    match doc.sigColls with
    | [] => true
    | sigs :: _ => distinctStrings (sigs.map InternalSig.id)

/-- Modelled from the spec (§4.3, §8 Order preservation): the accepted
pairings a file contributes, in source-document order of its
InternalSignatures, each paired with the unique FileFormat record whose
back-reference equals the signature's original identifier; a rejected
or non-signature file contributes none. -/
def spec_matches (ffs : List FileFormat) (s : InternalSig) : List FileFormat :=
  ffs.filter (fun ff => ff.internalSignatureID == NodeValue.str s.id)

/-- Modelled from the spec: the reference pairing list of one file (see
`spec_matches`). -/
def file_pairings : SigFile → List (InternalSig × FileFormat)
  | SigFile.malformed => []
  | SigFile.preamble => []
  | SigFile.parsed doc =>
    if doc.rootTag = "FFSignatureFile" then
      match doc.sigColls, doc.ffColls with
      | sigs :: _, ffs :: _ =>
        if sigs.length = ffs.length ∧ ∀ s ∈ sigs, (spec_matches ffs s).length = 1 then
          sigs.map (fun s => (s, (spec_matches ffs s).headD default))
        else []
      | _, _ => []
    else []

/-- A file on which `split_xml` raises whatever the surrounding state:
the root tag matches but extraction or pairing throws. -/
def file_fails (f : SigFile) : Prop :=
  ∃ doc, f = SigFile.parsed doc ∧ doc.rootTag = "FFSignatureFile" ∧
    ∀ ids pfx s, ∃ e, split_xml doc.sigColls doc.ffColls ids pfx s = Except.error e

/-- The field rewrite `renumber_pairs` applies to a `FileFormat` node
for identifier `idx`. -/
def renum_ff (pfx : String) (idx : Int) (ff : FileFormat) : FileFormat :=
  { ff with
    id := toString idx
    puid := pfx ++ "/" ++ toString idx
    internalSignatureID := NodeValue.int idx }

/-- Digits of `n` in base hm-free decimal notation, most significant
first; specification-side mirror of `Nat.toDigitsCore`. -/
def natDigits (n : Nat) : List Char :=
  if _h : n < 10 then [Nat.digitChar n]
  else natDigits (n / 10) ++ [Nat.digitChar (n % 10)]
decreasing_by exact Nat.div_lt_self (by omega) (by omega)

/-- Numeric value of a decimal digit character. -/
def digitVal (c : Char) : Nat := c.toNat - 48

/-- Horner evaluation of a decimal digit string. -/
def digitsVal (acc : Nat) : List Char → Nat
  | [] => acc
  | c :: cs => digitsVal (acc * 10 + digitVal c) cs

/-! Concrete input documents used by the closed evaluation theorems. -/

/-- A well-formed one-pairing document. -/
def exDocA : XmlDoc :=
  { rootTag := "FFSignatureFile"
    sigColls := [[{ id := "5", payload := 101 }]]
    ffColls := [[{ id := "5", puid := "dev/5", internalSignatureID := NodeValue.str "5",
                   payload := 201 }]] }

/-- Collection sizes differ (1 signature, 2 format records). -/
def exDocB : XmlDoc :=
  { rootTag := "FFSignatureFile"
    sigColls := [[{ id := "1", payload := 111 }]]
    ffColls := [[{ id := "a", puid := "p", internalSignatureID := NodeValue.str "1",
                   payload := 211 },
                 { id := "b", puid := "q", internalSignatureID := NodeValue.str "2",
                   payload := 212 }]] }

/-- A second well-formed one-pairing document. -/
def exDocC : XmlDoc :=
  { rootTag := "FFSignatureFile"
    sigColls := [[{ id := "9", payload := 102 }]]
    ffColls := [[{ id := "9", puid := "dev/9", internalSignatureID := NodeValue.str "9",
                   payload := 202 }]] }

/-- Equal sizes but the signature has zero matching format records. -/
def exDocM : XmlDoc :=
  { rootTag := "FFSignatureFile"
    sigColls := [[{ id := "1", payload := 1 }]]
    ffColls := [[{ id := "9", puid := "p", internalSignatureID := NodeValue.str "2",
                   payload := 2 }]] }

/-- Root tag matches but both collection lists are empty. -/
def exDocE : XmlDoc :=
  { rootTag := "FFSignatureFile", sigColls := [], ffColls := [] }

/-- Both collections present and empty. -/
def exDocZ : XmlDoc :=
  { rootTag := "FFSignatureFile", sigColls := [[]], ffColls := [[]] }

/-- Well-formed XML whose root element is not a signature file. -/
def exDocN : XmlDoc :=
  { rootTag := "SomethingElse"
    sigColls := [[{ id := "1", payload := 7 }]]
    ffColls := [[{ id := "1", puid := "p", internalSignatureID := NodeValue.str "1",
                   payload := 8 }]] }

/-- Two InternalSignatures share the `ID` "1": both pairings select the
same FileFormat node. -/
def exDocAl : XmlDoc :=
  { rootTag := "FFSignatureFile"
    sigColls := [[{ id := "1", payload := 11 }, { id := "1", payload := 12 }]]
    ffColls := [[{ id := "a", puid := "p", internalSignatureID := NodeValue.str "1",
                   payload := 21 },
                 { id := "b", puid := "q", internalSignatureID := NodeValue.str "2",
                   payload := 22 }]] }

/-- Expected output of merging `exDocA` alone with prefix `ffdev` and
start index 1. -/
def exOutA : MergedDoc :=
  { xmlns := "http://www.nationalarchives.gov.uk/pronom/SignatureFile"
    version := "1"
    dateCreated := "T"
    internalSigs := [{ id := "1", payload := 101 }]
    fileFormats := [{ id := "1", puid := "ffdev/1", internalSignatureID := NodeValue.int 1,
                      payload := 201 }] }

/-- Expected output of merging `exDocA` then `exDocC`. -/
def exOutAC : MergedDoc :=
  { xmlns := "http://www.nationalarchives.gov.uk/pronom/SignatureFile"
    version := "1"
    dateCreated := "T"
    internalSigs := [{ id := "1", payload := 101 }, { id := "2", payload := 102 }]
    fileFormats := [{ id := "1", puid := "ffdev/1", internalSignatureID := NodeValue.int 1,
                      payload := 201 },
                    { id := "2", puid := "ffdev/2", internalSignatureID := NodeValue.int 2,
                      payload := 202 }] }

/-- Expected output of merging `exDocC` alone with prefix `custom` and
start index 100. -/
def exOutX : MergedDoc :=
  { xmlns := "http://www.nationalarchives.gov.uk/pronom/SignatureFile"
    version := "1"
    dateCreated := "T"
    internalSigs := [{ id := "100", payload := 102 }]
    fileFormats := [{ id := "100", puid := "custom/100",
                      internalSignatureID := NodeValue.int 100, payload := 202 }] }

/-! ## Injectivity of decimal rendering

The renumbering step writes `f"{idx}"` into the `ID` attributes, so
reasoning about "exactly one matching signature" needs that decimal
rendering of integers is injective. -/

theorem digitVal_digitChar {d : Nat} (h : d < 10) : digitVal (Nat.digitChar d) = d := by
  interval_cases d <;> rfl

theorem digitChar_ne_dash {d : Nat} (h : d < 10) : Nat.digitChar d ≠ '-' := by
  interval_cases d <;> decide

theorem natDigits_small {n : Nat} (h : n < 10) : natDigits n = [Nat.digitChar n] := by
  rw [natDigits, dif_pos h]

theorem natDigits_large {n : Nat} (h : ¬ n < 10) :
    natDigits n = natDigits (n / 10) ++ [Nat.digitChar (n % 10)] := by
  conv_lhs => rw [natDigits]
  rw [dif_neg h]

theorem digitsVal_cons (acc : Nat) (c : Char) (cs : List Char) :
    digitsVal acc (c :: cs) = digitsVal (acc * 10 + digitVal c) cs := rfl

theorem digitsVal_nil (acc : Nat) : digitsVal acc [] = acc := rfl

theorem digitsVal_append (acc : Nat) (xs : List Char) (c : Char) :
    digitsVal acc (xs ++ [c]) = (digitsVal acc xs) * 10 + digitVal c := by
  induction xs generalizing acc with
  | nil => rfl
  | cons x xs ih =>
    rw [List.cons_append, digitsVal_cons, digitsVal_cons]
    exact ih (acc * 10 + digitVal x)

theorem digitsVal_natDigits (n : Nat) : digitsVal 0 (natDigits n) = n := by
  induction n using Nat.strong_induction_on with
  | _ n ih =>
    by_cases h : n < 10
    · rw [natDigits_small h, digitsVal_cons, digitVal_digitChar h, digitsVal_nil]
      omega
    · rw [natDigits_large h, digitsVal_append,
        ih (n / 10) (Nat.div_lt_self (by omega) (by omega)),
        digitVal_digitChar (Nat.mod_lt n (by omega))]
      omega

theorem natDigits_inj {a b : Nat} (h : natDigits a = natDigits b) : a = b := by
  have ha := digitsVal_natDigits a
  rw [h, digitsVal_natDigits] at ha
  omega

theorem toDigitsCore_eq (f n : Nat) (ds : List Char) (h : n < f) :
    Nat.toDigitsCore 10 f n ds = natDigits n ++ ds := by
  induction f generalizing n ds with
  | zero => omega
  | succ f ih =>
    rw [Nat.toDigitsCore]
    by_cases h0 : n / 10 = 0
    · have hn : n < 10 := (Nat.div_eq_zero_iff (by omega)).mp h0
      simp only [h0, if_true]
      rw [natDigits_small hn, Nat.mod_eq_of_lt hn]
      rfl
    · have hn : ¬ n < 10 := fun hl => h0 ((Nat.div_eq_zero_iff (by omega)).mpr hl)
      simp only [h0, if_false]
      have hf : n / 10 < f :=
        Nat.lt_of_lt_of_le (Nat.div_lt_self (by omega) (by omega)) (by omega)
      rw [ih _ _ hf, natDigits_large hn]
      simp

theorem natRepr_eq (n : Nat) : Nat.repr n = (natDigits n).asString := by
  unfold Nat.repr Nat.toDigits
  rw [toDigitsCore_eq _ _ _ (Nat.lt_succ_self n), List.append_nil]

theorem asString_inj {a b : List Char} (h : a.asString = b.asString) : a = b := by
  have hd := congrArg String.data h
  simpa [List.asString] using hd

theorem natRepr_inj {a b : Nat} (h : Nat.repr a = Nat.repr b) : a = b :=
  natDigits_inj (asString_inj (by rwa [natRepr_eq, natRepr_eq] at h))

theorem natDigits_head (n : Nat) : ∃ d t, d < 10 ∧ natDigits n = Nat.digitChar d :: t := by
  induction n using Nat.strong_induction_on with
  | _ n ih =>
    by_cases h : n < 10
    · exact ⟨n, [], h, natDigits_small h⟩
    · obtain ⟨d, t, hd, ht⟩ := ih (n / 10) (Nat.div_lt_self (by omega) (by omega))
      refine ⟨d, t ++ [Nat.digitChar (n % 10)], hd, ?_⟩
      rw [natDigits_large h, ht]
      rfl

theorem natRepr_ne_dash (m k : Nat) : Nat.repr m ≠ "-" ++ Nat.repr k := by
  intro h
  obtain ⟨d, t, hdlt, ht⟩ := natDigits_head m
  have hd : (Nat.repr m).data = ("-" ++ Nat.repr k).data := congrArg String.data h
  rw [String.data_append, natRepr_eq] at hd
  have hleft : (natDigits m).asString.data = natDigits m := rfl
  rw [hleft, ht] at hd
  have hdash : ("-" : String).data = ['-'] := rfl
  rw [hdash] at hd
  exact digitChar_ne_dash hdlt (List.cons_eq_cons.mp hd).1

theorem string_append_left_cancel {a b : String} (c : String) (h : c ++ a = c ++ b) :
    a = b := by
  apply String.ext
  have hd := congrArg String.data h
  rw [String.data_append, String.data_append] at hd
  exact List.append_cancel_left hd

theorem int_toString_inj {a b : Int} (h : toString a = toString b) : a = b := by
  have h' : Int.repr a = Int.repr b := h
  cases a with
  | ofNat m =>
    cases b with
    | ofNat k =>
      have hm : Nat.repr m = Nat.repr k := h'
      exact congrArg Int.ofNat (natRepr_inj hm)
    | negSucc k =>
      have hm : Nat.repr m = "-" ++ Nat.repr (k + 1) := h'
      exact absurd hm (natRepr_ne_dash m (k + 1))
  | negSucc m =>
    cases b with
    | ofNat k =>
      have hm : Nat.repr k = "-" ++ Nat.repr (m + 1) := h'.symm
      exact absurd hm (natRepr_ne_dash k (m + 1))
    | negSucc k =>
      have hm : ("-" : String) ++ Nat.repr (m + 1) = "-" ++ Nat.repr (k + 1) := h'
      have hmk : m + 1 = k + 1 := natRepr_inj (string_append_left_cancel "-" hm)
      have : m = k := by omega
      rw [this]

/-! ## `idsFrom` and list utilities -/

theorem length_idsFrom (base : Int) (n : Nat) : (idsFrom base n).length = n := by
  induction n generalizing base with
  | zero => rfl
  | succ n ih => simp [idsFrom, ih]

theorem idsFrom_append (base : Int) (n m : Nat) :
    idsFrom base n ++ idsFrom (base + n) m = idsFrom base (n + m) := by
  induction n generalizing base with
  | zero => simp [idsFrom]
  | succ n ih =>
    rw [Nat.succ_add]
    simp only [idsFrom, List.cons_append, List.cons.injEq, true_and]
    rw [show base + ((n + 1 : Nat) : Int) = (base + 1) + (n : Int) by push_cast; ring]
    exact ih (base + 1)

theorem mem_idsFrom {x base : Int} {n : Nat} (h : x ∈ idsFrom base n) :
    base ≤ x ∧ x < base + n := by
  induction n generalizing base with
  | zero => simp [idsFrom] at h
  | succ n ih =>
    simp only [idsFrom, List.mem_cons] at h
    rcases h with h | h
    · subst h; omega
    · have := ih h; omega

theorem getD_idsFrom (base : Int) {n i : Nat} (h : i < n) :
    (idsFrom base n).getD i 0 = base + i := by
  induction n generalizing base i with
  | zero => omega
  | succ n ih =>
    cases i with
    | zero => simp [idsFrom]
    | succ i =>
      simp only [idsFrom, List.getD_cons_succ]
      rw [ih (base + 1) (by omega)]
      push_cast
      ring

theorem pairwise_ne_idsFrom (base : Int) (n : Nat) :
    (idsFrom base n).Pairwise (fun a b => a ≠ b) := by
  induction n generalizing base with
  | zero => exact List.Pairwise.nil
  | succ n ih =>
    refine List.Pairwise.cons (fun x hx => ?_) (ih (base + 1))
    have := mem_idsFrom hx
    omega

theorem length_filter_idsFrom (base t : Int) (n : Nat) :
    ((idsFrom base n).filter (fun x => x == t)).length =
      if base ≤ t ∧ t < base + n then 1 else 0 := by
  induction n generalizing base with
  | zero =>
    have h : ¬(base ≤ t ∧ t < base + ((0 : Nat) : Int)) := by omega
    rw [if_neg h]
    rfl
  | succ n ih =>
    simp only [idsFrom, List.filter_cons]
    by_cases hbt : base = t
    · subst hbt
      rw [if_pos (by simp), List.length_cons, ih (base + 1)]
      have h1 : ¬((base + 1 : Int) ≤ base ∧ base < base + 1 + (n : Int)) := by omega
      have h2 : base ≤ base ∧ base < base + ((n + 1 : Nat) : Int) := by omega
      rw [if_neg h1, if_pos h2]
    · rw [if_neg (by simp [hbt]), ih (base + 1)]
      by_cases h4 : (base + 1 : Int) ≤ t ∧ t < base + 1 + (n : Int)
      · rw [if_pos h4, if_pos (show base ≤ t ∧ t < base + ((n + 1 : Nat) : Int) by omega)]
      · rw [if_neg h4, if_neg (show ¬(base ≤ t ∧ t < base + ((n + 1 : Nat) : Int)) by omega)]

theorem getD_set_self {α : Type _} (l : List α) (i : Nat) (a d : α) (h : i < l.length) :
    (l.set i a).getD i d = a := by
  induction l generalizing i with
  | nil => simp at h
  | cons x xs ih =>
    cases i with
    | zero => rfl
    | succ i =>
      have h1 : (x :: xs).set (i + 1) a = x :: xs.set i a := rfl
      rw [h1, List.getD_cons_succ]
      exact ih i (by simpa using h)

theorem getD_set_ne {α : Type _} (l : List α) {i j : Nat} (a d : α) (h : i ≠ j) :
    (l.set i a).getD j d = l.getD j d := by
  induction l generalizing i j with
  | nil => rfl
  | cons x xs ih =>
    cases i with
    | zero =>
      cases j with
      | zero => omega
      | succ j => rfl
    | succ i =>
      cases j with
      | zero => rfl
      | succ j =>
        have h1 : (x :: xs).set (i + 1) a = x :: xs.set i a := rfl
        rw [h1, List.getD_cons_succ, List.getD_cons_succ]
        exact ih (by omega)

theorem mem_enum_getD {α : Type _} {l : List α} {i : Nat} {a : α} (d : α)
    (h : (i, a) ∈ l.enum) : i < l.length ∧ l.getD i d = a := by
  obtain ⟨-, h2, h3⟩ := List.mem_enumFrom h
  have hi : i < l.length := by simpa using h2
  refine ⟨hi, ?_⟩
  rw [List.getD_eq_getElem l d hi]
  simp only [Nat.sub_zero] at h3
  exact h3.symm

theorem map_snd_filter_enumFrom {α : Type _} (q : α → Bool) (k : Nat) (l : List α) :
    ((l.enumFrom k).filter (fun p => q p.2)).map Prod.snd = l.filter q := by
  induction l generalizing k with
  | nil => rfl
  | cons x xs ih =>
    rw [List.enumFrom_cons, List.filter_cons, List.filter_cons]
    by_cases hq : q x
    · simp only [hq, if_true, List.map_cons]
      rw [ih (k + 1)]
    · simp only [hq, if_false]
      exact ih (k + 1)

theorem spec_matches_eq_map (ffs : List FileFormat) (s : InternalSig) :
    (get_matches ffs.enum s.id).map Prod.snd = spec_matches ffs s := by
  unfold get_matches spec_matches
  exact map_snd_filter_enumFrom (fun ff => ff.internalSignatureID == NodeValue.str s.id) 0 ffs

theorem length_spec_matches (ffs : List FileFormat) (s : InternalSig) :
    (spec_matches ffs s).length = (get_matches ffs.enum s.id).length := by
  rw [← spec_matches_eq_map, List.length_map]

theorem eraseP_no_match {α : Type _} {p : α → Bool} {l : List α} (h : ∀ a ∈ l, p a = false) :
    l.eraseP p = l := by
  induction l with
  | nil => rfl
  | cons x xs ih =>
    rw [List.eraseP_cons_of_neg (by simp [h x (List.mem_cons_self x xs)])]
    rw [ih (fun a ha => h a (List.mem_cons_of_mem x ha))]

theorem filter_length_over_map {α β : Type _} (f : α → β) (q : β → Bool) (l : List α) :
    ((l.map f).filter q).length = (l.filter (fun x => q (f x))).length := by
  induction l with
  | nil => rfl
  | cons x xs ih =>
    rw [List.map_cons, List.filter_cons, List.filter_cons]
    by_cases h : q (f x) = true
    · rw [if_pos h, if_pos h, List.length_cons, List.length_cons, ih]
    · rw [if_neg h, if_neg h, ih]

theorem mem_foldl_dom_append {x : FFNode} (l : List FFNode) :
    ∀ acc : List FFNode, x ∈ l.foldl dom_append_child acc → x ∈ acc ∨ x ∈ l := by
  induction l with
  | nil => intro acc h; exact Or.inl h
  | cons n rest ih =>
    intro acc h
    rcases ih (dom_append_child acc n) h with h1 | h1
    · unfold dom_append_child at h1
      rcases List.mem_append.mp h1 with h2 | h2
      · exact Or.inl ((List.eraseP_sublist _).subset h2)
      · exact Or.inr (by simpa using Or.inl (by simpa using h2))
    · exact Or.inr (List.mem_cons_of_mem n h1)

theorem foldl_dom_append_of_distinct (l : List FFNode) :
    ∀ acc : List FFNode,
      (∀ n ∈ l, ∀ m ∈ acc, m.key ≠ n.key) →
      (l.map FFNode.key).Nodup →
      l.foldl dom_append_child acc = acc ++ l := by
  induction l with
  | nil => intro acc _ _; simp
  | cons n rest ih =>
    intro acc hacc hnodup
    rw [List.foldl_cons]
    have h1 : dom_append_child acc n = acc ++ [n] := by
      unfold dom_append_child
      rw [eraseP_no_match (fun m hm =>
        beq_eq_false_iff_ne.mpr (hacc n (List.mem_cons_self n rest) m hm))]
    rw [h1]
    obtain ⟨hn1, hn2⟩ : (∀ x ∈ rest, ¬ x.key = n.key) ∧ (rest.map FFNode.key).Nodup := by
      simpa using hnodup
    rw [ih (acc ++ [n]) ?_ hn2]
    · simp
    · intro x hx m hm
      rcases List.mem_append.mp hm with h2 | h2
      · exact hacc x (List.mem_cons_of_mem n hx) m h2
      · have hmn : m = n := by simpa using h2
        subst hmn
        exact fun hk => hn1 x hx hk.symm

/-! ## Lemmas about the pairing loop -/

theorem pair_signatures_cons_ok {ffsE : List (Nat × FileFormat)} {item : InternalSig}
    {rest : List InternalSig} {pl : List (InternalSig × Nat)}
    (h : pair_signatures ffsE (item :: rest) = Except.ok pl) :
    ∃ m tail, get_matches ffsE item.id = [m] ∧
      pair_signatures ffsE rest = Except.ok tail ∧ pl = (item, m.1) :: tail := by
  rcases hm : get_matches ffsE item.id with _ | ⟨m, _ | ⟨m2, ms⟩⟩
  · rw [pair_signatures, hm] at h
    cases h
  · rw [pair_signatures, hm] at h
    rcases ht : pair_signatures ffsE rest with e | tail
    · rw [ht] at h
      cases h
    · rw [ht] at h
      cases h
      exact ⟨m, tail, rfl, rfl, rfl⟩
  · rw [pair_signatures, hm] at h
    cases h

theorem pair_signatures_nil_ok {ffsE : List (Nat × FileFormat)}
    {pl : List (InternalSig × Nat)}
    (h : pair_signatures ffsE [] = Except.ok pl) : pl = [] := by
  rw [pair_signatures] at h
  cases h
  rfl

theorem pair_signatures_map_fst {ffsE : List (Nat × FileFormat)} :
    ∀ {l : List InternalSig} {pl : List (InternalSig × Nat)},
      pair_signatures ffsE l = Except.ok pl → pl.map Prod.fst = l := by
  intro l
  induction l with
  | nil =>
    intro pl h
    rw [pair_signatures_nil_ok h]
    rfl
  | cons item rest ih =>
    intro pl h
    obtain ⟨m, tail, -, ht, rfl⟩ := pair_signatures_cons_ok h
    rw [List.map_cons, ih ht]

theorem pair_signatures_mem {ffsE : List (Nat × FileFormat)} :
    ∀ {l : List InternalSig} {pl : List (InternalSig × Nat)},
      pair_signatures ffsE l = Except.ok pl →
      ∀ pr ∈ pl, pr.1 ∈ l ∧ ∃ v, get_matches ffsE pr.1.id = [(pr.2, v)] := by
  intro l
  induction l with
  | nil =>
    intro pl h pr hpr
    rw [pair_signatures_nil_ok h] at hpr
    cases hpr
  | cons item rest ih =>
    intro pl h pr hpr
    obtain ⟨m, tail, hm, ht, rfl⟩ := pair_signatures_cons_ok h
    rcases List.mem_cons.mp hpr with hpr | hpr
    · subst hpr
      exact ⟨List.mem_cons_self item rest, m.2, by rw [hm]⟩
    · obtain ⟨h1, h2⟩ := ih ht pr hpr
      exact ⟨List.mem_cons_of_mem item h1, h2⟩

theorem pair_signatures_all_one {ffsE : List (Nat × FileFormat)} :
    ∀ {l : List InternalSig} {pl : List (InternalSig × Nat)},
      pair_signatures ffsE l = Except.ok pl →
      ∀ s ∈ l, (get_matches ffsE s.id).length = 1 := by
  intro l
  induction l with
  | nil => intro pl _ s hs; cases hs
  | cons item rest ih =>
    intro pl h s hs
    obtain ⟨m, tail, hm, ht, rfl⟩ := pair_signatures_cons_ok h
    rcases List.mem_cons.mp hs with hs | hs
    · subst hs
      rw [hm]
      rfl
    · exact ih ht s hs

theorem pair_signatures_of_bad {ffsE : List (Nat × FileFormat)} :
    ∀ {l : List InternalSig},
      (∃ s ∈ l, (get_matches ffsE s.id).length ≠ 1) →
      pair_signatures ffsE l = Except.error Exn.assertionError := by
  intro l
  induction l with
  | nil => rintro ⟨s, hs, -⟩; cases hs
  | cons item rest ih =>
    rintro ⟨s, hs, hbad⟩
    rcases hm : get_matches ffsE item.id with _ | ⟨m, _ | ⟨m2, ms⟩⟩
    · rw [pair_signatures, hm]
    · rcases List.mem_cons.mp hs with hs | hs
      · subst hs
        rw [hm] at hbad
        exact absurd rfl hbad
      · rw [pair_signatures, hm, ih ⟨s, hs, hbad⟩]
    · rw [pair_signatures, hm]

theorem pair_signatures_pos_nodup {ffs : List FileFormat} :
    ∀ {l : List InternalSig} {pl : List (InternalSig × Nat)},
      pair_signatures ffs.enum l = Except.ok pl →
      (l.map InternalSig.id).Nodup → (pl.map Prod.snd).Nodup := by
  intro l
  induction l with
  | nil =>
    intro pl h _
    rw [pair_signatures_nil_ok h]
    exact List.Pairwise.nil
  | cons item rest ih =>
    intro pl h hids
    obtain ⟨m, tail, hm, ht, rfl⟩ := pair_signatures_cons_ok h
    obtain ⟨hid1, hid2⟩ : (∀ x ∈ rest, ¬ x.id = item.id) ∧ (rest.map InternalSig.id).Nodup := by
      simpa using hids
    rw [List.map_cons]
    refine List.nodup_cons.mpr ⟨?_, ih ht hid2⟩
    intro hmem
    obtain ⟨pr, hpr, hpos⟩ := List.mem_map.mp hmem
    obtain ⟨hin, v, hv⟩ := pair_signatures_mem ht pr hpr
    have hm_mem : m ∈ ffs.enum ∧ (m.2.internalSignatureID == NodeValue.str item.id) = true := by
      have : m ∈ get_matches ffs.enum item.id := by rw [hm]; exact List.mem_singleton_self m
      exact List.mem_filter.mp this
    have hv_mem : (pr.2, v) ∈ ffs.enum ∧
        (v.internalSignatureID == NodeValue.str pr.1.id) = true := by
      have : (pr.2, v) ∈ get_matches ffs.enum pr.1.id := by
        rw [hv]; exact List.mem_singleton_self _
      exact List.mem_filter.mp this
    have hmpair : (m.1, m.2) ∈ ffs.enum := by
      have := hm_mem.1
      rwa [show ((m.1, m.2) : Nat × FileFormat) = m from rfl]
    have h1 := mem_enum_getD default hmpair
    have h2 := mem_enum_getD default (hpos ▸ hv_mem.1)
    have hvm : v = m.2 := h2.2.symm.trans h1.2
    have : item.id = pr.1.id := by
      have e1 := beq_iff_eq.mp hm_mem.2
      have e2 := beq_iff_eq.mp hv_mem.2
      rw [hvm] at e2
      have := e1.symm.trans e2
      injection this
    exact hid1 pr.1 hin this.symm

theorem pair_signatures_pos_lt {ffs : List FileFormat} {l : List InternalSig}
    {pl : List (InternalSig × Nat)}
    (h : pair_signatures ffs.enum l = Except.ok pl) :
    ∀ pr ∈ pl, pr.2 < ffs.length := by
  intro pr hpr
  obtain ⟨-, v, hv⟩ := pair_signatures_mem h pr hpr
  have : (pr.2, v) ∈ ffs.enum := by
    have : (pr.2, v) ∈ get_matches ffs.enum pr.1.id := by
      rw [hv]; exact List.mem_singleton_self _
    exact (List.mem_filter.mp this).1
  exact (mem_enum_getD default this).1

/-! ## Lemmas about the renumbering loop -/


theorem renumber_pairs_cons_fst (pfx : String) (s : Int) (sig : InternalSig) (pos : Nat)
    (rest : List (InternalSig × Nat)) (store : List FileFormat) (ids : List Int) :
    (renumber_pairs pfx s ((sig, pos) :: rest) store ids).1 =
      ({ sig with id := toString ((ids.length : Int) + s) }, pos) ::
        (renumber_pairs pfx s rest
          (store.set pos (renum_ff pfx ((ids.length : Int) + s) (store.getD pos default)))
          (ids ++ [(ids.length : Int) + s])).1 := rfl

theorem renumber_pairs_cons_store (pfx : String) (s : Int) (sig : InternalSig) (pos : Nat)
    (rest : List (InternalSig × Nat)) (store : List FileFormat) (ids : List Int) :
    (renumber_pairs pfx s ((sig, pos) :: rest) store ids).2.1 =
      (renumber_pairs pfx s rest
        (store.set pos (renum_ff pfx ((ids.length : Int) + s) (store.getD pos default)))
        (ids ++ [(ids.length : Int) + s])).2.1 := rfl

theorem renumber_pairs_cons_ids (pfx : String) (s : Int) (sig : InternalSig) (pos : Nat)
    (rest : List (InternalSig × Nat)) (store : List FileFormat) (ids : List Int) :
    (renumber_pairs pfx s ((sig, pos) :: rest) store ids).2.2 =
      (renumber_pairs pfx s rest
        (store.set pos (renum_ff pfx ((ids.length : Int) + s) (store.getD pos default)))
        (ids ++ [(ids.length : Int) + s])).2.2 := rfl

theorem renumber_pairs_ids (pfx : String) (s : Int) :
    ∀ (l : List (InternalSig × Nat)) (store : List FileFormat) (ids : List Int),
      (renumber_pairs pfx s l store ids).2.2 =
        ids ++ idsFrom ((ids.length : Int) + s) l.length := by
  intro l
  induction l with
  | nil => intro store ids; simp [renumber_pairs, idsFrom]
  | cons pr rest ih =>
    intro store ids
    obtain ⟨sig, pos⟩ := pr
    rw [renumber_pairs_cons_ids, ih, List.append_assoc, List.singleton_append]
    show ids ++ _ = ids ++ idsFrom ((ids.length : Int) + s) (rest.length + 1)
    congr 1
    rw [show idsFrom ((ids.length : Int) + s) (rest.length + 1) =
      ((ids.length : Int) + s) :: idsFrom (((ids.length : Int) + s) + 1) rest.length from rfl]
    congr 2
    simp
    ring

theorem renumber_ret_cons (base : Int) (sig : InternalSig) (pos : Nat)
    (rest : List (InternalSig × Nat)) :
    renumber_ret base ((sig, pos) :: rest) =
      ({ sig with id := toString base }, pos) :: renumber_ret (base + 1) rest := rfl

theorem renumber_pairs_ret (pfx : String) (s : Int) :
    ∀ (l : List (InternalSig × Nat)) (store : List FileFormat) (ids : List Int),
      (renumber_pairs pfx s l store ids).1 = renumber_ret ((ids.length : Int) + s) l := by
  intro l
  induction l with
  | nil => intro store ids; rfl
  | cons pr rest ih =>
    intro store ids
    obtain ⟨sig, pos⟩ := pr
    rw [renumber_pairs_cons_fst, renumber_ret_cons, ih]
    congr 2
    simp
    ring

theorem renumber_ret_length (base : Int) :
    ∀ l : List (InternalSig × Nat), (renumber_ret base l).length = l.length := by
  intro l
  induction l generalizing base with
  | nil => rfl
  | cons pr rest ih =>
    obtain ⟨sig, pos⟩ := pr
    rw [renumber_ret_cons, List.length_cons, List.length_cons, ih]

theorem renumber_ret_map_payload_pos (base : Int) :
    ∀ l : List (InternalSig × Nat),
      (renumber_ret base l).map (fun pr => (pr.1.payload, pr.2)) =
        l.map (fun pr => (pr.1.payload, pr.2)) := by
  intro l
  induction l generalizing base with
  | nil => rfl
  | cons pr rest ih =>
    obtain ⟨sig, pos⟩ := pr
    rw [renumber_ret_cons, List.map_cons, List.map_cons, ih]

theorem renumber_ret_map_snd (base : Int) :
    ∀ l : List (InternalSig × Nat),
      (renumber_ret base l).map Prod.snd = l.map Prod.snd := by
  intro l
  induction l generalizing base with
  | nil => rfl
  | cons pr rest ih =>
    obtain ⟨sig, pos⟩ := pr
    rw [renumber_ret_cons, List.map_cons, List.map_cons, ih]

theorem renumber_ret_map_id (base : Int) :
    ∀ l : List (InternalSig × Nat),
      (renumber_ret base l).map (fun pr => pr.1.id) =
        (idsFrom base l.length).map toString := by
  intro l
  induction l generalizing base with
  | nil => rfl
  | cons pr rest ih =>
    obtain ⟨sig, pos⟩ := pr
    rw [renumber_ret_cons, List.map_cons, ih]
    rfl

theorem renumber_pairs_store_length (pfx : String) (s : Int) :
    ∀ (l : List (InternalSig × Nat)) (store : List FileFormat) (ids : List Int),
      (renumber_pairs pfx s l store ids).2.1.length = store.length := by
  intro l
  induction l with
  | nil => intro store ids; rfl
  | cons pr rest ih =>
    intro store ids
    obtain ⟨sig, pos⟩ := pr
    rw [renumber_pairs_cons_store, ih, List.length_set]

theorem renumber_pairs_store_payload (pfx : String) (s : Int) :
    ∀ (l : List (InternalSig × Nat)) (store : List FileFormat) (ids : List Int) (pos : Nat)
      (d : FileFormat),
      ((renumber_pairs pfx s l store ids).2.1.getD pos d).payload =
        (store.getD pos d).payload := by
  intro l
  induction l with
  | nil => intros; rfl
  | cons pr rest ih =>
    intro store ids pos d
    obtain ⟨sig, pos0⟩ := pr
    rw [renumber_pairs_cons_store, ih]
    by_cases hp : pos0 = pos
    · subst hp
      by_cases hlen : pos0 < store.length
      · rw [getD_set_self _ _ _ _ hlen]
        show (store.getD pos0 default).payload = (store.getD pos0 d).payload
        rw [List.getD_eq_getElem _ _ hlen, List.getD_eq_getElem _ _ hlen]
      · rw [List.set_eq_of_length_le (by omega)]
    · rw [getD_set_ne _ _ _ hp]

theorem renumber_pairs_store_untouched (pfx : String) (s : Int) :
    ∀ (l : List (InternalSig × Nat)) (store : List FileFormat) (ids : List Int) (pos : Nat)
      (d : FileFormat), pos ∉ l.map Prod.snd →
      (renumber_pairs pfx s l store ids).2.1.getD pos d = store.getD pos d := by
  intro l
  induction l with
  | nil => intros; rfl
  | cons pr rest ih =>
    intro store ids pos d hpos
    obtain ⟨sig, pos0⟩ := pr
    simp only [List.map_cons, List.mem_cons] at hpos
    push_neg at hpos
    rw [renumber_pairs_cons_store, ih _ _ _ _ hpos.2]
    exact getD_set_ne _ _ _ (fun h => hpos.1 h.symm)

theorem renumber_pairs_store_written (pfx : String) (s : Int) :
    ∀ (l : List (InternalSig × Nat)) (store : List FileFormat) (ids : List Int) (pos : Nat)
      (d : FileFormat),
      (∀ pr ∈ l, pr.2 < store.length) → pos ∈ l.map Prod.snd →
      ∃ j : Nat, j < l.length ∧
        (renumber_pairs pfx s l store ids).2.1.getD pos d =
          renum_ff pfx ((ids.length : Int) + s + (j : Int))
            ((renumber_pairs pfx s l store ids).2.1.getD pos d) := by
  intro l
  induction l with
  | nil =>
    intro store ids pos d _ hpos
    cases hpos
  | cons pr rest ih =>
    intro store ids pos d hall hpos
    obtain ⟨sig, pos0⟩ := pr
    have hlen0 : pos0 < store.length := hall (sig, pos0) (List.mem_cons_self _ _)
    by_cases hmem : pos ∈ rest.map Prod.snd
    · have hall' : ∀ pr ∈ rest,
          pr.2 < (store.set pos0
            (renum_ff pfx ((ids.length : Int) + s) (store.getD pos0 default))).length := by
        intro pr hpr
        rw [List.length_set]
        exact hall pr (List.mem_cons_of_mem _ hpr)
      obtain ⟨j, hj, hfield⟩ := ih _ (ids ++ [(ids.length : Int) + s]) pos d hall' hmem
      refine ⟨j + 1, by simp [Nat.succ_lt_succ hj], ?_⟩
      rw [renumber_pairs_cons_store]
      have harith : (((ids ++ [(ids.length : Int) + s]).length : Nat) : Int) + s + (j : Int) =
          (ids.length : Int) + s + ((j + 1 : Nat) : Int) := by
        simp
        ring
      rw [← harith]
      exact hfield
    · have hpp : pos = pos0 := by
        simp only [List.map_cons, List.mem_cons] at hpos
        rcases hpos with h | h
        · exact h
        · exact absurd h hmem
      subst hpp
      refine ⟨0, by simp, ?_⟩
      rw [renumber_pairs_cons_store,
        renumber_pairs_store_untouched pfx s rest _ _ _ _ hmem,
        getD_set_self _ _ _ _ hlen0]
      show renum_ff pfx ((ids.length : Int) + s) (store.getD pos default) =
        renum_ff pfx ((ids.length : Int) + s + ((0 : Nat) : Int))
          (renum_ff pfx ((ids.length : Int) + s) (store.getD pos default))
      have e0 : (ids.length : Int) + s + ((0 : Nat) : Int) = (ids.length : Int) + s := by simp
      rw [e0]
      rfl

/-! ## Unfolding lemmas for `split_xml` and the orchestrator loop -/

theorem split_xml_nil_left (c2 : List (List FileFormat)) (ids : List Int)
    (pfx : String) (s : Int) :
    split_xml [] c2 ids pfx s = Except.error Exn.indexError := rfl

theorem split_xml_nil_right (sigs : List InternalSig) (t1 : List (List InternalSig))
    (ids : List Int) (pfx : String) (s : Int) :
    split_xml (sigs :: t1) [] ids pfx s = Except.error Exn.indexError := rfl

theorem split_xml_cons (sigs : List InternalSig) (t1 : List (List InternalSig))
    (ffs : List FileFormat) (t2 : List (List FileFormat)) (ids : List Int)
    (pfx : String) (s : Int) :
    split_xml (sigs :: t1) (ffs :: t2) ids pfx s =
      if sigs.length ≠ ffs.length then Except.ok (none, ffs, [])
      else
        match pair_signatures ffs.enum sigs with
        | Except.error e => Except.error e
        | Except.ok pairings =>
          Except.ok (some (renumber_pairs pfx s pairings ffs ids).1,
            (renumber_pairs pfx s pairings ffs ids).2.1,
            (renumber_pairs pfx s pairings ffs ids).2.2) := rfl

theorem process_one_malformed (pfx : String) (s : Int) (path : String) (st : LoopState) :
    process_one pfx s path SigFile.malformed st =
      Except.ok { st with logs := st.logs ++ [LogEvent.errorCannotProcess path] } := rfl

theorem process_one_preamble (pfx : String) (s : Int) (path : String) (st : LoopState) :
    process_one pfx s path SigFile.preamble st =
      Except.error (Exn.attributeError, st) := rfl

theorem process_one_skip {doc : XmlDoc} (h : ¬ doc.rootTag = "FFSignatureFile")
    (pfx : String) (s : Int) (path : String) (st : LoopState) :
    process_one pfx s path (SigFile.parsed doc) st = Except.ok st := by
  rw [process_one, if_neg h]

theorem process_one_parsed {doc : XmlDoc} (h : doc.rootTag = "FFSignatureFile")
    (pfx : String) (s : Int) (path : String) (st : LoopState) :
    process_one pfx s path (SigFile.parsed doc) st =
      match split_xml doc.sigColls doc.ffColls st.identifiers pfx s with
      | Except.error e => Except.error (e, st)
      | Except.ok (res, store, identifiers') =>
        match res with
        | none =>
          Except.ok { st with
            identifiers := identifiers'
            logs := st.logs ++ [LogEvent.errorCannotProcess path] }
        | some ret =>
          if ret.isEmpty then
            Except.ok { st with
              identifiers := identifiers'
              logs := st.logs ++ [LogEvent.errorCannotProcess path] }
          else
            Except.ok { st with
              sig_list := st.sig_list ++
                ret.map (fun pr => (pr.1, FFNode.mk st.processed pr.2 (store.getD pr.2 default)))
              identifiers := identifiers'
              processed := st.processed + 1 } := by
  rw [process_one, if_pos h]

theorem process_loop_cons (pfx : String) (s : Int) (path : String) (file : SigFile)
    (rest : List (String × SigFile)) (st : LoopState) :
    process_loop pfx s ((path, file) :: rest) st =
      match process_one pfx s path file st with
      | Except.error e => Except.error e
      | Except.ok st' => process_loop pfx s rest st' := rfl

theorem process_one_fails {f : SigFile} (hf : file_fails f) (pfx : String) (s : Int)
    (path : String) (st : LoopState) :
    ∃ e, process_one pfx s path f st = Except.error (e, st) := by
  obtain ⟨doc, rfl, hroot, hsplit⟩ := hf
  obtain ⟨e, he⟩ := hsplit st.identifiers pfx s
  refine ⟨e, ?_⟩
  rw [process_one_parsed hroot, he]

theorem process_loop_fails (pfx : String) (s : Int) :
    ∀ (l : List (String × SigFile)) (st : LoopState),
      (∃ pf ∈ l, file_fails pf.2) →
      ∃ e st', process_loop pfx s l st = Except.error (e, st') := by
  intro l
  induction l with
  | nil => rintro st ⟨pf, hpf, -⟩; cases hpf
  | cons entry rest ih =>
    rintro st ⟨pf, hpf, hfail⟩
    obtain ⟨path, file⟩ := entry
    rcases hres : process_one pfx s path file st with e | st'
    · exact ⟨e.1, e.2, by rw [process_loop_cons, hres]⟩
    · rcases List.mem_cons.mp hpf with hpf | hpf
      · subst hpf
        obtain ⟨e, he⟩ := process_one_fails hfail pfx s path st
        rw [hres] at he
        cases he
      · obtain ⟨e, st'', hloop⟩ := ih st' ⟨pf, hpf, hfail⟩
        refine ⟨e, st'', ?_⟩
        rw [process_loop_cons, hres]
        exact hloop

theorem process_paths_aborts {manifest : List (String × SigFile)} {p : String} {f : SigFile}
    (hmem : (p, f) ∈ manifest) (hfail : file_fails f) (pfx : String) (s : Int)
    (now : String) :
    ∃ e logs, process_paths manifest pfx s now = RunOutcome.aborted e logs := by
  have hmem' : (p, f) ∈ sort_manifest manifest := by
    unfold sort_manifest
    exact (List.perm_insertionSort _ manifest).mem_iff.mpr hmem
  obtain ⟨e, st', hloop⟩ :=
    process_loop_fails pfx s (sort_manifest manifest) (LoopState.mk [] [] 0 [])
      ⟨(p, f), hmem', hfail⟩
  refine ⟨e, st'.logs, ?_⟩
  unfold process_paths
  rw [hloop]

/-! ## Inversion of `split_xml` success and of one loop iteration -/

theorem split_xml_ok_none {c1 : List (List InternalSig)} {c2 : List (List FileFormat)}
    {ids : List Int} {pfx : String} {s : Int} {store : List FileFormat} {ids' : List Int}
    (h : split_xml c1 c2 ids pfx s = Except.ok (none, store, ids')) :
    ∃ sigs t1 ffs t2, c1 = sigs :: t1 ∧ c2 = ffs :: t2 ∧
      sigs.length ≠ ffs.length ∧ store = ffs ∧ ids' = [] := by
  rcases c1 with _ | ⟨sigs, t1⟩
  · rw [split_xml_nil_left] at h
    cases h
  · rcases c2 with _ | ⟨ffs, t2⟩
    · rw [split_xml_nil_right] at h
      cases h
    · rw [split_xml_cons] at h
      by_cases hlen : sigs.length ≠ ffs.length
      · rw [if_pos hlen] at h
        injection h with h
        injection h with h1 h
        injection h with h2 h3
        exact ⟨sigs, t1, ffs, t2, rfl, rfl, hlen, h2.symm, h3.symm⟩
      · rw [if_neg hlen] at h
        rcases hp : pair_signatures ffs.enum sigs with e | pl
        · rw [hp] at h
          cases h
        · rw [hp] at h
          injection h with h
          injection h with h1 h
          cases h1

theorem split_xml_ok_some {c1 : List (List InternalSig)} {c2 : List (List FileFormat)}
    {ids : List Int} {pfx : String} {s : Int} {ret : List (InternalSig × Nat)}
    {store : List FileFormat} {ids' : List Int}
    (h : split_xml c1 c2 ids pfx s = Except.ok (some ret, store, ids')) :
    ∃ sigs t1 ffs t2 pl,
      c1 = sigs :: t1 ∧ c2 = ffs :: t2 ∧ sigs.length = ffs.length ∧
      pair_signatures ffs.enum sigs = Except.ok pl ∧
      ret = renumber_ret ((ids.length : Int) + s) pl ∧
      store = (renumber_pairs pfx s pl ffs ids).2.1 ∧
      ids' = ids ++ idsFrom ((ids.length : Int) + s) pl.length := by
  rcases c1 with _ | ⟨sigs, t1⟩
  · rw [split_xml_nil_left] at h
    cases h
  · rcases c2 with _ | ⟨ffs, t2⟩
    · rw [split_xml_nil_right] at h
      cases h
    · rw [split_xml_cons] at h
      by_cases hlen : sigs.length ≠ ffs.length
      · rw [if_pos hlen] at h
        injection h with h
        injection h with h1 h
        cases h1
      · rw [if_neg hlen] at h
        rcases hp : pair_signatures ffs.enum sigs with e | pl
        · rw [hp] at h
          cases h
        · rw [hp] at h
          injection h with h
          injection h with h1 h
          injection h with h2 h3
          injection h1 with h1
          refine ⟨sigs, t1, ffs, t2, pl, rfl, rfl, by omega, hp, ?_, h2.symm, ?_⟩
          · rw [← h1, renumber_pairs_ret]
          · rw [← h3, renumber_pairs_ids]

theorem file_pairings_malformed : file_pairings SigFile.malformed = [] := rfl

theorem file_pairings_skip {doc : XmlDoc} (h : ¬ doc.rootTag = "FFSignatureFile") :
    file_pairings (SigFile.parsed doc) = [] := by
  rw [file_pairings, if_neg h]

theorem file_pairings_mismatch {doc : XmlDoc} {sigs : List InternalSig}
    {t1 : List (List InternalSig)} {ffs : List FileFormat} {t2 : List (List FileFormat)}
    (hroot : doc.rootTag = "FFSignatureFile") (h1 : doc.sigColls = sigs :: t1)
    (h2 : doc.ffColls = ffs :: t2) (hlen : sigs.length ≠ ffs.length) :
    file_pairings (SigFile.parsed doc) = [] := by
  rw [file_pairings, if_pos hroot, h1, h2]
  show (if sigs.length = ffs.length ∧ ∀ s ∈ sigs, (spec_matches ffs s).length = 1 then
      sigs.map (fun s => (s, (spec_matches ffs s).headD default)) else []) = []
  rw [if_neg (fun hc => hlen hc.1)]

theorem file_pairings_of_accept {doc : XmlDoc} {sigs : List InternalSig}
    {t1 : List (List InternalSig)} {ffs : List FileFormat} {t2 : List (List FileFormat)}
    {pl : List (InternalSig × Nat)}
    (hroot : doc.rootTag = "FFSignatureFile") (h1 : doc.sigColls = sigs :: t1)
    (h2 : doc.ffColls = ffs :: t2) (hlen : sigs.length = ffs.length)
    (hp : pair_signatures ffs.enum sigs = Except.ok pl) :
    file_pairings (SigFile.parsed doc) =
      sigs.map (fun s => (s, (spec_matches ffs s).headD default)) := by
  rw [file_pairings, if_pos hroot, h1, h2]
  show (if sigs.length = ffs.length ∧ ∀ s ∈ sigs, (spec_matches ffs s).length = 1 then
      sigs.map (fun s => (s, (spec_matches ffs s).headD default)) else []) = _
  rw [if_pos ⟨hlen, fun s hs => by
    rw [length_spec_matches]
    exact pair_signatures_all_one hp s hs⟩]

/-- Exhaustive shape analysis of one successful loop iteration. -/
theorem process_one_ok_cases {pfx : String} {s : Int} {path : String} {f : SigFile}
    {st st' : LoopState} (h : process_one pfx s path f st = Except.ok st') :
    (f = SigFile.malformed ∧
      st' = { st with logs := st.logs ++ [LogEvent.errorCannotProcess path] }) ∨
    (∃ doc, f = SigFile.parsed doc ∧ ¬ doc.rootTag = "FFSignatureFile" ∧ st' = st) ∨
    (∃ doc sigs t1 ffs t2, f = SigFile.parsed doc ∧ doc.rootTag = "FFSignatureFile" ∧
      doc.sigColls = sigs :: t1 ∧ doc.ffColls = ffs :: t2 ∧ sigs.length ≠ ffs.length ∧
      st' = { st with identifiers := []
                      logs := st.logs ++ [LogEvent.errorCannotProcess path] }) ∨
    (∃ doc sigs t1 ffs t2, f = SigFile.parsed doc ∧ doc.rootTag = "FFSignatureFile" ∧
      doc.sigColls = sigs :: t1 ∧ doc.ffColls = ffs :: t2 ∧ sigs.length = ffs.length ∧
      pair_signatures ffs.enum sigs = Except.ok ([] : List (InternalSig × Nat)) ∧
      st' = { st with logs := st.logs ++ [LogEvent.errorCannotProcess path] }) ∨
    (∃ doc sigs t1 ffs t2 pl, f = SigFile.parsed doc ∧ doc.rootTag = "FFSignatureFile" ∧
      doc.sigColls = sigs :: t1 ∧ doc.ffColls = ffs :: t2 ∧ sigs.length = ffs.length ∧
      pair_signatures ffs.enum sigs = Except.ok pl ∧ pl ≠ [] ∧
      st' = { st with
        sig_list := st.sig_list ++
          (renumber_ret ((st.identifiers.length : Int) + s) pl).map
            (fun pr => (pr.1, FFNode.mk st.processed pr.2
              ((renumber_pairs pfx s pl ffs st.identifiers).2.1.getD pr.2 default)))
        identifiers := st.identifiers ++ idsFrom ((st.identifiers.length : Int) + s) pl.length
        processed := st.processed + 1 }) := by
  cases f with
  | malformed =>
    rw [process_one_malformed] at h
    injection h with h
    exact Or.inl ⟨rfl, h.symm⟩
  | preamble =>
    rw [process_one_preamble] at h
    cases h
  | parsed doc =>
    by_cases hroot : doc.rootTag = "FFSignatureFile"
    · rw [process_one_parsed hroot] at h
      split at h
      · cases h
      · rename_i res store ids' heq
        split at h
        · obtain ⟨sigs, t1, ffs, t2, hc1, hc2, hlen, -, hids⟩ := split_xml_ok_none heq
          injection h with h
          subst hids
          exact Or.inr (Or.inr (Or.inl ⟨doc, sigs, t1, ffs, t2, rfl, hroot, hc1, hc2, hlen,
            h.symm⟩))
        · rename_i ret
          obtain ⟨sigs, t1, ffs, t2, pl, hc1, hc2, hlen, hp, hret, hstore, hids⟩ :=
            split_xml_ok_some heq
          split at h
          · rename_i hemp
            injection h with h
            have hpl : pl = [] := by
              have hretnil := List.isEmpty_iff.mp hemp
              rw [hret] at hretnil
              have hlenpl := renumber_ret_length ((st.identifiers.length : Int) + s) pl
              rw [hretnil] at hlenpl
              cases pl with
              | nil => rfl
              | cons a l => cases hlenpl
            subst hpl
            exact Or.inr (Or.inr (Or.inr (Or.inl ⟨doc, sigs, t1, ffs, t2, rfl, hroot, hc1, hc2,
              hlen, hp, by rw [← h, hids]; simp [idsFrom]⟩)))
          · rename_i hemp
            injection h with h
            refine Or.inr (Or.inr (Or.inr (Or.inr ⟨doc, sigs, t1, ffs, t2, pl, rfl, hroot,
              hc1, hc2, hlen, hp, ?_, ?_⟩)))
            · intro hpl
              subst hpl
              rw [show renumber_ret ((st.identifiers.length : Int) + s) [] = [] from rfl] at hret
              subst hret
              exact hemp rfl
            · rw [← h, hret, hstore, hids]
    · rw [process_one_skip hroot] at h
      injection h with h
      exact Or.inr (Or.inl ⟨doc, rfl, hroot, h.symm⟩)

/-! ## The PUID invariant (claim C5's backbone) -/

theorem process_one_puid {pfx : String} {s : Int} {path : String} {f : SigFile}
    {st st' : LoopState} (h : process_one pfx s path f st = Except.ok st')
    (hinv : ∀ e ∈ st.sig_list, e.2.val.puid = pfx ++ "/" ++ e.2.val.id) :
    ∀ e ∈ st'.sig_list, e.2.val.puid = pfx ++ "/" ++ e.2.val.id := by
  rcases process_one_ok_cases h with ⟨-, rfl⟩ | ⟨doc, -, -, rfl⟩ |
    ⟨doc, sigs, t1, ffs, t2, -, -, -, -, -, rfl⟩ |
    ⟨doc, sigs, t1, ffs, t2, -, -, -, -, -, -, rfl⟩ |
    ⟨doc, sigs, t1, ffs, t2, pl, -, -, -, -, -, hp, -, rfl⟩
  · exact hinv
  · exact hinv
  · exact hinv
  · exact hinv
  · intro e he
    rcases List.mem_append.mp he with he | he
    · exact hinv e he
    · obtain ⟨pr, hpr, rfl⟩ := List.mem_map.mp he
      have hsnd : pr.2 ∈ pl.map Prod.snd := by
        have hmm : pr.2 ∈ (renumber_ret ((st.identifiers.length : Int) + s) pl).map Prod.snd :=
          List.mem_map_of_mem Prod.snd hpr
        rwa [renumber_ret_map_snd] at hmm
      have hlt : ∀ q ∈ pl, q.2 < ffs.length := pair_signatures_pos_lt hp
      obtain ⟨j, hj, hfield⟩ := renumber_pairs_store_written pfx s pl ffs st.identifiers pr.2
        default hlt hsnd
      rw [hfield]
      rfl

theorem process_loop_puid {pfx : String} {s : Int} :
    ∀ {l : List (String × SigFile)} {st st' : LoopState},
      process_loop pfx s l st = Except.ok st' →
      (∀ e ∈ st.sig_list, e.2.val.puid = pfx ++ "/" ++ e.2.val.id) →
      ∀ e ∈ st'.sig_list, e.2.val.puid = pfx ++ "/" ++ e.2.val.id := by
  intro l
  induction l with
  | nil =>
    intro st st' h hinv
    injection h with h
    rw [← h]
    exact hinv
  | cons entry rest ih =>
    intro st st' h hinv
    obtain ⟨path, file⟩ := entry
    rw [process_loop_cons] at h
    split at h
    · cases h
    · rename_i st'' hres
      exact ih h (process_one_puid hres hinv)

theorem create_new_sig_file_doc (sigs : List (InternalSig × FFNode)) (now : String) :
    (create_new_sig_file sigs now).2.internalSigs = sigs.map Prod.fst ∧
    (create_new_sig_file sigs now).2.fileFormats =
      ((sigs.map Prod.snd).foldl dom_append_child []).map FFNode.val ∧
    (create_new_sig_file sigs now).2.dateCreated = now :=
  ⟨rfl, rfl, rfl⟩

theorem process_paths_merged_inv {manifest : List (String × SigFile)} {pfx : String}
    {s : Int} {now : String} {logs : List LogEvent} {doc : MergedDoc}
    (h : process_paths manifest pfx s now = RunOutcome.merged logs doc) :
    ∃ st, process_loop pfx s (sort_manifest manifest) (LoopState.mk [] [] 0 []) =
        Except.ok st ∧
      st.sig_list ≠ [] ∧
      doc = (create_new_sig_file st.sig_list now).2 ∧
      logs = st.logs ++ [LogEvent.infoProcessed st.processed] ++
        (create_new_sig_file st.sig_list now).1 := by
  unfold process_paths at h
  split at h
  · cases h
  · rename_i st hloop
    by_cases hemp : st.sig_list.length = 0
    · rw [if_pos hemp] at h
      cases h
    · rw [if_neg hemp] at h
      injection h with h1 h2
      refine ⟨st, hloop, ?_, h2.symm, h1.symm⟩
      intro hnil
      rw [hnil] at hemp
      exact hemp rfl

/-! ## The identifier invariant (claims C1 and C4's backbone)

Holds only for runs in which no file is rejected for a collection-size
mismatch: that rejection path returns a fresh empty `identifiers` list
and so resets the allocator. -/

theorem process_one_ids {pfx : String} {s : Int} {path : String} {f : SigFile}
    {st st' : LoopState} (h : process_one pfx s path f st = Except.ok st')
    (hnm : is_mismatch_file f = false)
    (ha : st.identifiers = idsFrom s st.sig_list.length)
    (hb : st.sig_list.map (fun e => e.1.id) = (idsFrom s st.sig_list.length).map toString)
    (hc : ∀ e ∈ st.sig_list, ∃ j : Nat, j < st.sig_list.length ∧
      e.2.val.id = toString (s + (j : Int)) ∧
      e.2.val.internalSignatureID = NodeValue.int (s + (j : Int))) :
    st'.identifiers = idsFrom s st'.sig_list.length ∧
    st'.sig_list.map (fun e => e.1.id) = (idsFrom s st'.sig_list.length).map toString ∧
    ∀ e ∈ st'.sig_list, ∃ j : Nat, j < st'.sig_list.length ∧
      e.2.val.id = toString (s + (j : Int)) ∧
      e.2.val.internalSignatureID = NodeValue.int (s + (j : Int)) := by
  rcases process_one_ok_cases h with ⟨-, rfl⟩ | ⟨doc, -, -, rfl⟩ |
    ⟨doc, sigs, t1, ffs, t2, hf, hroot, hcc1, hcc2, hlen, rfl⟩ |
    ⟨doc, sigs, t1, ffs, t2, -, -, -, -, -, -, rfl⟩ |
    ⟨doc, sigs, t1, ffs, t2, pl, -, -, -, -, -, hp, -, rfl⟩
  · exact ⟨ha, hb, hc⟩
  · exact ⟨ha, hb, hc⟩
  · exfalso
    subst hf
    rw [is_mismatch_file, hcc1, hcc2] at hnm
    simp [hroot] at hnm
    exact hlen hnm
  · exact ⟨ha, hb, hc⟩
  · have hlen_ids : st.identifiers.length = st.sig_list.length := by
      rw [ha, length_idsFrom]
    have hbase : (st.identifiers.length : Int) + s = s + (st.sig_list.length : Int) := by
      rw [hlen_ids]
      ring
    refine ⟨?_, ?_, ?_⟩
    · dsimp only
      rw [ha, length_idsFrom, List.length_append, List.length_map, renumber_ret_length,
        show ((st.sig_list.length : Int) + s) = s + (st.sig_list.length : Int) from by ring,
        idsFrom_append]
    · dsimp only
      rw [List.map_append, hb, List.map_map,
        show ((fun e : InternalSig × FFNode => e.1.id) ∘
          (fun pr : InternalSig × Nat => (pr.1, FFNode.mk st.processed pr.2
            ((renumber_pairs pfx s pl ffs st.identifiers).2.1.getD pr.2 default)))) =
          (fun pr : InternalSig × Nat => pr.1.id) from rfl,
        renumber_ret_map_id, hlen_ids,
        show ((st.sig_list.length : Int) + s) = s + (st.sig_list.length : Int) from by ring,
        ← List.map_append, idsFrom_append, List.length_append, List.length_map,
        renumber_ret_length]
    · intro e he
      dsimp only at he
      dsimp only
      rw [List.length_append, List.length_map, renumber_ret_length]
      rcases List.mem_append.mp he with he | he
      · obtain ⟨j, hj, hid, hbr⟩ := hc e he
        exact ⟨j, by omega, hid, hbr⟩
      · obtain ⟨pr, hpr, rfl⟩ := List.mem_map.mp he
        have hsnd : pr.2 ∈ pl.map Prod.snd := by
          have hmm : pr.2 ∈ (renumber_ret ((st.identifiers.length : Int) + s) pl).map Prod.snd :=
            List.mem_map_of_mem Prod.snd hpr
          rwa [renumber_ret_map_snd] at hmm
        have hlt : ∀ q ∈ pl, q.2 < ffs.length := pair_signatures_pos_lt hp
        obtain ⟨j, hj, hfield⟩ := renumber_pairs_store_written pfx s pl ffs st.identifiers
          pr.2 default hlt hsnd
        refine ⟨st.sig_list.length + j, ?_, ?_, ?_⟩
        · omega
        · show ((renumber_pairs pfx s pl ffs st.identifiers).2.1.getD pr.2 default).id = _
          rw [hfield]
          show toString ((st.identifiers.length : Int) + s + (j : Int)) = _
          congr 1
          rw [hlen_ids]
          push_cast
          ring
        · show ((renumber_pairs pfx s pl ffs
              st.identifiers).2.1.getD pr.2 default).internalSignatureID = _
          rw [hfield]
          show NodeValue.int ((st.identifiers.length : Int) + s + (j : Int)) = _
          congr 1
          rw [hlen_ids]
          push_cast
          ring

theorem process_loop_ids {pfx : String} {s : Int} :
    ∀ {l : List (String × SigFile)} {st st' : LoopState},
      process_loop pfx s l st = Except.ok st' →
      (∀ pf ∈ l, is_mismatch_file pf.2 = false) →
      st.identifiers = idsFrom s st.sig_list.length →
      st.sig_list.map (fun e => e.1.id) = (idsFrom s st.sig_list.length).map toString →
      (∀ e ∈ st.sig_list, ∃ j : Nat, j < st.sig_list.length ∧
        e.2.val.id = toString (s + (j : Int)) ∧
        e.2.val.internalSignatureID = NodeValue.int (s + (j : Int))) →
      st'.sig_list.map (fun e => e.1.id) =
          (idsFrom s st'.sig_list.length).map toString ∧
      ∀ e ∈ st'.sig_list, ∃ j : Nat, j < st'.sig_list.length ∧
        e.2.val.id = toString (s + (j : Int)) ∧
        e.2.val.internalSignatureID = NodeValue.int (s + (j : Int)) := by
  intro l
  induction l with
  | nil =>
    intro st st' h _ _ hb hc
    injection h with h
    rw [← h]
    exact ⟨hb, hc⟩
  | cons entry rest ih =>
    intro st st' h hnm ha hb hc
    obtain ⟨path, file⟩ := entry
    rw [process_loop_cons] at h
    split at h
    · cases h
    · rename_i st'' hres
      obtain ⟨ha', hb', hc'⟩ :=
        process_one_ids hres (hnm (path, file) (List.mem_cons_self _ _)) ha hb hc
      exact ih h (fun pf hpf => hnm pf (List.mem_cons_of_mem _ hpf)) ha' hb' hc'

/-! ## Order preservation (claim C6's backbone) -/

theorem distinctStrings_nodup : ∀ {l : List String}, distinctStrings l = true → l.Nodup := by
  intro l
  induction l with
  | nil => intro _; exact List.Pairwise.nil
  | cons x xs ih =>
    intro h
    rw [distinctStrings, Bool.and_eq_true] at h
    refine List.nodup_cons.mpr ⟨?_, ih h.2⟩
    intro hmem
    have h1 := h.1
    rw [Bool.not_eq_true'] at h1
    unfold List.contains at h1
    rw [List.elem_eq_true_of_mem hmem] at h1
    cases h1

theorem charListLe_total : ∀ a b : List Char, charListLe a b = true ∨ charListLe b a = true := by
  intro a
  induction a with
  | nil => intro b; exact Or.inl rfl
  | cons x xs ih =>
    intro b
    cases b with
    | nil => exact Or.inr rfl
    | cons y ys =>
      by_cases hxy : x < y
      · exact Or.inl (by rw [charListLe, if_pos hxy])
      · by_cases hyx : y < x
        · exact Or.inr (by rw [charListLe, if_pos hyx])
        · rcases ih ys with h | h
          · exact Or.inl (by rw [charListLe, if_neg hxy, if_neg hyx]; exact h)
          · exact Or.inr (by rw [charListLe, if_neg hyx, if_neg hxy]; exact h)

theorem charListLe_trans :
    ∀ a b c : List Char, charListLe a b = true → charListLe b c = true →
      charListLe a c = true := by
  intro a
  induction a with
  | nil => intro b c _ _; rfl
  | cons x xs ih =>
    intro b c hab hbc
    cases b with
    | nil => rw [charListLe] at hab; cases hab
    | cons y ys =>
      cases c with
      | nil => rw [charListLe] at hbc; cases hbc
      | cons z zs =>
        rw [charListLe] at hab hbc ⊢
        by_cases hxy : x < y
        · by_cases hyz : y < z
          · rw [if_pos (lt_trans hxy hyz)]
          · by_cases hzy : z < y
            · rw [if_neg hyz, if_pos hzy] at hbc
              cases hbc
            · have hyzeq : y = z := le_antisymm (not_lt.mp hzy) (not_lt.mp hyz)
              subst hyzeq
              rw [if_pos hxy]
        · rw [if_neg hxy] at hab
          by_cases hyx : y < x
          · rw [if_pos hyx] at hab
            cases hab
          · rw [if_neg hyx] at hab
            have hxyeq : x = y := le_antisymm (not_lt.mp hyx) (not_lt.mp hxy)
            subst hxyeq
            by_cases hxz : x < z
            · rw [if_pos hxz]
            · by_cases hzx : z < x
              · rw [if_neg hxz, if_pos hzx] at hbc
                cases hbc
              · rw [if_neg hxz, if_neg hzx] at hbc ⊢
                exact ih ys zs hab hbc

instance : IsTotal (String × SigFile) (fun a b => path_le a.1 b.1 = true) :=
  ⟨fun a b => charListLe_total a.1.data b.1.data⟩

instance : IsTrans (String × SigFile) (fun a b => path_le a.1 b.1 = true) :=
  ⟨fun a b c => charListLe_trans a.1.data b.1.data c.1.data⟩

theorem sort_manifest_sorted (manifest : List (String × SigFile)) :
    (sort_manifest manifest).Pairwise (fun a b => path_le a.1 b.1 = true) :=
  List.sorted_insertionSort _ manifest

theorem pair_payload_spec {ffs : List FileFormat} :
    ∀ {l : List InternalSig} {pl : List (InternalSig × Nat)},
      pair_signatures ffs.enum l = Except.ok pl →
      pl.map (fun pr => (pr.1.payload, (ffs.getD pr.2 default).payload)) =
        l.map (fun sg => (sg.payload, ((spec_matches ffs sg).headD default).payload)) := by
  intro l
  induction l with
  | nil =>
    intro pl h
    rw [pair_signatures_nil_ok h]
    rfl
  | cons item rest ih =>
    intro pl h
    obtain ⟨m, tail, hm, ht, rfl⟩ := pair_signatures_cons_ok h
    rw [List.map_cons, List.map_cons, ih ht]
    congr 1
    have hspec : spec_matches ffs item = [m.2] := by
      rw [← spec_matches_eq_map, hm]
      rfl
    have hmm : m ∈ get_matches ffs.enum item.id := by
      rw [hm]
      exact List.mem_singleton_self m
    have hmem : (m.1, m.2) ∈ ffs.enum := (List.mem_filter.mp hmm).1
    have hgd : ffs.getD m.1 default = m.2 := (mem_enum_getD default hmem).2
    rw [hspec]
    show (item.payload, (ffs.getD m.1 default).payload) = (item.payload, m.2.payload)
    rw [hgd]

theorem process_one_c6 {pfx : String} {s : Int} {path : String} {f : SigFile}
    {st st' : LoopState} (h : process_one pfx s path f st = Except.ok st')
    (hd : has_distinct_sig_ids f = true) :
    st'.sig_list.map (fun e => (e.1.payload, e.2.val.payload)) =
      st.sig_list.map (fun e => (e.1.payload, e.2.val.payload)) ++
        (file_pairings f).map (fun pr => (pr.1.payload, pr.2.payload)) ∧
    st.processed ≤ st'.processed ∧
    (((st.sig_list.map (fun e => e.2.key)).Nodup ∧
        (∀ e ∈ st.sig_list, e.2.fileIdx < st.processed)) →
      ((st'.sig_list.map (fun e => e.2.key)).Nodup ∧
        (∀ e ∈ st'.sig_list, e.2.fileIdx < st'.processed))) := by
  rcases process_one_ok_cases h with ⟨hf, rfl⟩ | ⟨doc, hf, hroot, rfl⟩ |
    ⟨doc, sigs, t1, ffs, t2, hf, hroot, hc1, hc2, hlen, rfl⟩ |
    ⟨doc, sigs, t1, ffs, t2, hf, hroot, hc1, hc2, hlen, hp, rfl⟩ |
    ⟨doc, sigs, t1, ffs, t2, pl, hf, hroot, hc1, hc2, hlen, hp, hne, rfl⟩
  · subst hf
    rw [file_pairings_malformed]
    exact ⟨by simp, le_refl _, fun hi => hi⟩
  · subst hf
    rw [file_pairings_skip hroot]
    exact ⟨by simp, le_refl _, fun hi => hi⟩
  · subst hf
    rw [file_pairings_mismatch hroot hc1 hc2 hlen]
    exact ⟨by simp, le_refl _, fun hi => hi⟩
  · subst hf
    have hsigs : sigs = [] := by
      have hfst := pair_signatures_map_fst hp
      simpa using hfst.symm
    rw [file_pairings_of_accept hroot hc1 hc2 hlen hp, hsigs]
    exact ⟨by simp, le_refl _, fun hi => hi⟩
  · subst hf
    have hnd : distinctStrings (sigs.map InternalSig.id) = true := by
      rw [has_distinct_sig_ids, hc1] at hd
      exact hd
    have hposnd : (pl.map Prod.snd).Nodup :=
      pair_signatures_pos_nodup hp (distinctStrings_nodup hnd)
    refine ⟨?_, by dsimp only; omega, ?_⟩
    · dsimp only
      rw [List.map_append, List.map_map]
      congr 1
      have hstep1 : (renumber_ret ((st.identifiers.length : Int) + s) pl).map
          (fun pr : InternalSig × Nat => (pr.1.payload,
            ((renumber_pairs pfx s pl ffs st.identifiers).2.1.getD pr.2 default).payload)) =
          pl.map (fun pr : InternalSig × Nat => (pr.1.payload,
            ((renumber_pairs pfx s pl ffs st.identifiers).2.1.getD pr.2 default).payload)) := by
        have e1 := renumber_ret_map_payload_pos ((st.identifiers.length : Int) + s) pl
        have e2 := congrArg (List.map (fun q : Nat × Nat =>
          (q.1, ((renumber_pairs pfx s pl ffs st.identifiers).2.1.getD q.2 default).payload))) e1
        rw [List.map_map, List.map_map] at e2
        exact e2
      have hstep2 : pl.map (fun pr : InternalSig × Nat => (pr.1.payload,
            ((renumber_pairs pfx s pl ffs st.identifiers).2.1.getD pr.2 default).payload)) =
          pl.map (fun pr : InternalSig × Nat =>
            (pr.1.payload, (ffs.getD pr.2 default).payload)) :=
        List.map_congr_left (fun pr _ => by rw [renumber_pairs_store_payload])
      calc (renumber_ret ((st.identifiers.length : Int) + s) pl).map
            ((fun e : InternalSig × FFNode => (e.1.payload, e.2.val.payload)) ∘
              (fun pr : InternalSig × Nat => (pr.1, FFNode.mk st.processed pr.2
                ((renumber_pairs pfx s pl ffs st.identifiers).2.1.getD pr.2 default)))) =
          pl.map (fun pr : InternalSig × Nat => (pr.1.payload,
            ((renumber_pairs pfx s pl ffs st.identifiers).2.1.getD pr.2 default).payload)) :=
            hstep1
        _ = pl.map (fun pr : InternalSig × Nat =>
              (pr.1.payload, (ffs.getD pr.2 default).payload)) := hstep2
        _ = sigs.map (fun sg => (sg.payload,
              ((spec_matches ffs sg).headD default).payload)) := pair_payload_spec hp
        _ = (file_pairings (SigFile.parsed doc)).map
              (fun pr => (pr.1.payload, pr.2.payload)) := by
            rw [file_pairings_of_accept hroot hc1 hc2 hlen hp, List.map_map]
            rfl
    · rintro ⟨hn, hbd⟩
      constructor
      · dsimp only
        rw [List.map_append, List.map_map]
        refine List.Nodup.append hn ?_ ?_
        · have hkeys : (renumber_ret ((st.identifiers.length : Int) + s) pl).map
              ((fun e : InternalSig × FFNode => e.2.key) ∘
                (fun pr : InternalSig × Nat => (pr.1, FFNode.mk st.processed pr.2
                  ((renumber_pairs pfx s pl ffs st.identifiers).2.1.getD pr.2 default)))) =
              ((renumber_ret ((st.identifiers.length : Int) + s) pl).map Prod.snd).map
                (fun p => ((st.processed, p) : Nat × Nat)) := by
            rw [List.map_map]
            rfl
          rw [hkeys, renumber_ret_map_snd]
          refine List.Nodup.map ?_ hposnd
          intro a b hab
          injection hab with h1 h2
        · intro k hk1 hk2
          obtain ⟨e, he, rfl⟩ := List.mem_map.mp hk1
          obtain ⟨pr, -, hkey⟩ := List.mem_map.mp hk2
          have hb1 : e.2.fileIdx < st.processed := hbd e he
          have hkeq : e.2.key.1 = st.processed := by
            rw [← hkey]
            rfl
          rw [show e.2.key.1 = e.2.fileIdx from rfl] at hkeq
          omega
      · intro e he
        dsimp only at he ⊢
        rcases List.mem_append.mp he with he | he
        · exact Nat.lt_succ_of_lt (hbd e he)
        · obtain ⟨pr, -, rfl⟩ := List.mem_map.mp he
          exact Nat.lt_succ_self _

theorem process_loop_c6 {pfx : String} {s : Int} :
    ∀ {l : List (String × SigFile)} {st st' : LoopState},
      process_loop pfx s l st = Except.ok st' →
      (∀ pf ∈ l, has_distinct_sig_ids pf.2 = true) →
      st'.sig_list.map (fun e => (e.1.payload, e.2.val.payload)) =
        st.sig_list.map (fun e => (e.1.payload, e.2.val.payload)) ++
          (l.flatMap (fun pf => file_pairings pf.2)).map
            (fun pr => (pr.1.payload, pr.2.payload)) ∧
      (((st.sig_list.map (fun e => e.2.key)).Nodup ∧
          (∀ e ∈ st.sig_list, e.2.fileIdx < st.processed)) →
        ((st'.sig_list.map (fun e => e.2.key)).Nodup ∧
          (∀ e ∈ st'.sig_list, e.2.fileIdx < st'.processed))) := by
  intro l
  induction l with
  | nil =>
    intro st st' h _
    injection h with h
    rw [← h]
    exact ⟨by simp, fun hi => hi⟩
  | cons entry rest ih =>
    intro st st' h hd
    obtain ⟨path, file⟩ := entry
    rw [process_loop_cons] at h
    split at h
    · cases h
    · rename_i st'' hres
      obtain ⟨h1, -, h3⟩ := process_one_c6 hres (hd (path, file) (List.mem_cons_self _ _))
      obtain ⟨h1', h3'⟩ := ih h (fun pf hpf => hd pf (List.mem_cons_of_mem _ hpf))
      refine ⟨?_, fun hi => h3' (h3 hi)⟩
      rw [h1', h1, List.flatMap_cons, List.map_append, List.append_assoc]

/-- The timestamp parameter reaches only the `DateCreated` attribute:
two runs over the same manifest differ at most there. -/
theorem process_paths_det (manifest : List (String × SigFile)) (pfx : String) (s : Int)
    (t1 t2 : String) :
    erase_date (process_paths manifest pfx s t1) =
      erase_date (process_paths manifest pfx s t2) := by
  unfold process_paths
  cases process_loop pfx s (sort_manifest manifest) (LoopState.mk [] [] 0 []) with
  | error e =>
    obtain ⟨ex, st⟩ := e
    rfl
  | ok st =>
    dsimp only
    by_cases hemp : st.sig_list.length = 0
    · rw [if_pos hemp, if_pos hemp]
    · rw [if_neg hemp, if_neg hemp]
      rfl

/-! ## Shared scaffolding for the claim theorems -/

theorem sorted_all {P : (String × SigFile) → Prop} {manifest : List (String × SigFile)}
    (h : ∀ pf ∈ manifest, P pf) : ∀ pf ∈ sort_manifest manifest, P pf := by
  intro pf hpf
  exact h pf ((List.perm_insertionSort _ manifest).mem_iff.mp hpf)

theorem merged_nm_inv {manifest : List (String × SigFile)} {pfx : String} {s : Int}
    {now : String} {logs : List LogEvent} {doc : MergedDoc}
    (hnm : ∀ pf ∈ manifest, is_mismatch_file pf.2 = false)
    (h : process_paths manifest pfx s now = RunOutcome.merged logs doc) :
    ∃ st : LoopState,
      doc.internalSigs = st.sig_list.map Prod.fst ∧
      doc.fileFormats = ((st.sig_list.map Prod.snd).foldl dom_append_child []).map FFNode.val ∧
      st.sig_list.map (fun e => e.1.id) = (idsFrom s st.sig_list.length).map toString ∧
      ∀ e ∈ st.sig_list, ∃ j : Nat, j < st.sig_list.length ∧
        e.2.val.id = toString (s + (j : Int)) ∧
        e.2.val.internalSignatureID = NodeValue.int (s + (j : Int)) := by
  obtain ⟨st, hloop, -, hdoc, -⟩ := process_paths_merged_inv h
  obtain ⟨hb, hc⟩ := process_loop_ids hloop (sorted_all hnm) rfl rfl
    (by intro e he; cases he)
  refine ⟨st, ?_, ?_, hb, hc⟩
  · rw [hdoc]
    exact (create_new_sig_file_doc st.sig_list now).1
  · rw [hdoc]
    exact (create_new_sig_file_doc st.sig_list now).2.1

theorem merged_ids_shape {s : Int} {doc : MergedDoc} {st : LoopState}
    (hsig : doc.internalSigs = st.sig_list.map Prod.fst)
    (hb : st.sig_list.map (fun e => e.1.id) = (idsFrom s st.sig_list.length).map toString) :
    doc.internalSigs.map InternalSig.id =
      (idsFrom s doc.internalSigs.length).map toString := by
  rw [hsig, List.map_map, List.length_map]
  exact hb

/-! ## Claim C1 -/

/-- Claim C1 counterexample: in the run over `a` (one pairing), `b`
(mismatched collections), `c` (one pairing) with `start_index = 1`, the
renumbered identifiers are `1, 1` — not the contiguous ascending range
`1, 2` the claim promises — because the mismatch rejection resets the
shared `identifiers` list. -/
theorem C1_counterexample :
    run_sig_ids (process_paths [("a", SigFile.parsed exDocA), ("b", SigFile.parsed exDocB),
        ("c", SigFile.parsed exDocC)] "ffdev" 1 "T") = some ["1", "1"] ∧
    some ["1", "1"] ≠ some ((idsFrom 1 2).map toString) := by
  decide

/-- Claim C1 (amended): in every completed merge run in which no file is
rejected for a collection-size mismatch, the renumbered identifiers of
the output InternalSignatures are pairwise distinct and form the
contiguous ascending range `start_index, start_index + 1, ...`, the
`i`-th accepted pairing (0-based, global acceptance order) receiving
`start_index + i`. -/
theorem C1_contiguous_renumbering {manifest : List (String × SigFile)} {pfx : String}
    {s : Int} {now : String} {logs : List LogEvent} {doc : MergedDoc}
    (hnm : ∀ pf ∈ manifest, is_mismatch_file pf.2 = false)
    (h : process_paths manifest pfx s now = RunOutcome.merged logs doc) :
    doc.internalSigs.map InternalSig.id =
      (idsFrom s doc.internalSigs.length).map toString ∧
    (doc.internalSigs.map InternalSig.id).Pairwise (fun a b => a ≠ b) ∧
    ∀ i, i < doc.internalSigs.length →
      (doc.internalSigs.getD i default).id = toString (s + (i : Int)) := by
  obtain ⟨st, hsig, -, hb, -⟩ := merged_nm_inv hnm h
  have hmap : doc.internalSigs.map InternalSig.id =
      (idsFrom s doc.internalSigs.length).map toString := merged_ids_shape hsig hb
  refine ⟨hmap, ?_, ?_⟩
  · rw [hmap]
    refine List.Pairwise.map toString ?_ (pairwise_ne_idsFrom s doc.internalSigs.length)
    intro a b hab hc
    exact hab (int_toString_inj hc)
  · intro i hi
    have hi1 : i < (doc.internalSigs.map InternalSig.id).length := by simpa using hi
    have hi2 : i < ((idsFrom s doc.internalSigs.length).map toString).length := by
      rw [← hmap]
      exact hi1
    have hi3 : i < (idsFrom s doc.internalSigs.length).length := by
      simpa using hi2
    have e1 := List.getElem_of_eq hmap hi1
    rw [List.getElem_map, List.getElem_map] at e1
    rw [List.getD_eq_getElem _ _ hi, e1]
    congr 1
    rw [← List.getD_eq_getElem _ (0 : Int) hi3, getD_idsFrom]
    exact hi

/-- Claim C1 witness: the single-file run over `exDocA` satisfies the
amended claim's hypotheses, and its output has the contiguous identifier
shape, instantiated at position 0. -/
theorem C1_contiguous_renumbering_witness :
    is_mismatch_file (SigFile.parsed exDocA) = false ∧
    exOutA.internalSigs.map InternalSig.id =
      (idsFrom 1 exOutA.internalSigs.length).map toString ∧
    (exOutA.internalSigs.getD 0 default).id = toString ((1 : Int) + ((0 : Nat) : Int)) := by
  have H := C1_contiguous_renumbering (by decide)
    (by decide : process_paths [("a", SigFile.parsed exDocA)] "ffdev" 1 "T" =
      RunOutcome.merged [LogEvent.infoProcessed 1, LogEvent.infoItems 1] exOutA)
  exact ⟨by decide, H.1, H.2.2 0 (by decide)⟩

/-! ## Claim C2 -/

/-- Claim C2 (code bug evaluation): `b`'s collection-size mismatch is
logged and skipped, but `split_xml`'s `return None, []` replaces the
shared `identifiers` list with a fresh empty one, so `c` restarts
numbering at `start_index` and collides with `a`; without `b` the same
files receive `1` and `2`. -/
theorem C2_identifier_reset :
    run_sig_ids (process_paths [("a", SigFile.parsed exDocA), ("b", SigFile.parsed exDocB),
        ("c", SigFile.parsed exDocC)] "ffdev" 1 "T") = some ["1", "1"] ∧
    run_logs (process_paths [("a", SigFile.parsed exDocA), ("b", SigFile.parsed exDocB),
        ("c", SigFile.parsed exDocC)] "ffdev" 1 "T") =
      [LogEvent.errorCannotProcess "b", LogEvent.infoProcessed 2, LogEvent.infoItems 2] ∧
    run_sig_ids (process_paths [("a", SigFile.parsed exDocA),
        ("c", SigFile.parsed exDocC)] "ffdev" 1 "T") = some ["1", "2"] := by
  decide

/-! ## Claim C3 -/

/-- Claim C3 counterexample: `exDocM` has equal collection sizes but its
single InternalSignature has zero matching FileFormat records.  The run
over it (followed by the well-formed `exDocC`, which should still be
processed if the failure were per-file) aborts with the uncaught
`AssertionError` and emits no error-level diagnostic at all. -/
theorem C3_counterexample :
    run_exn (process_paths [("a2", SigFile.parsed exDocM), ("b2", SigFile.parsed exDocC)]
      "ffdev" 1 "T") = some Exn.assertionError ∧
    run_logs (process_paths [("a2", SigFile.parsed exDocM), ("b2", SigFile.parsed exDocC)]
      "ffdev" 1 "T") = [] := by
  decide

/-- Claim C3 (corrected): if some manifest file parses to a signature
document with equal collection sizes in which some InternalSignature has
a number of matching FileFormat records other than one, then `split_xml`
raises `AssertionError` whatever the surrounding state, and the whole
run aborts — the file is not skipped, nothing is logged for it, and
later files are not processed. -/
theorem C3_assertion_aborts {manifest : List (String × SigFile)} {p : String}
    {doc : XmlDoc} {sigs : List InternalSig} {t1 : List (List InternalSig)}
    {ffs : List FileFormat} {t2 : List (List FileFormat)}
    (hmem : (p, SigFile.parsed doc) ∈ manifest)
    (hroot : doc.rootTag = "FFSignatureFile")
    (hc1 : doc.sigColls = sigs :: t1) (hc2 : doc.ffColls = ffs :: t2)
    (hlen : sigs.length = ffs.length)
    (hbad : ∃ sg ∈ sigs, (get_matches ffs.enum sg.id).length ≠ 1)
    (pfx : String) (s : Int) (now : String) :
    (∀ ids pfx2 s2, split_xml doc.sigColls doc.ffColls ids pfx2 s2 =
        Except.error Exn.assertionError) ∧
    ∃ e logs, process_paths manifest pfx s now = RunOutcome.aborted e logs := by
  have hsplit : ∀ ids pfx2 s2, split_xml doc.sigColls doc.ffColls ids pfx2 s2 =
      Except.error Exn.assertionError := by
    intro ids pfx2 s2
    rw [hc1, hc2, split_xml_cons, if_neg (by omega), pair_signatures_of_bad hbad]
  exact ⟨hsplit, process_paths_aborts hmem ⟨doc, rfl, hroot, fun ids pfx2 s2 =>
    ⟨Exn.assertionError, hsplit ids pfx2 s2⟩⟩ pfx s now⟩

/-- Claim C3 witness: on `exDocM` the pairing count really differs from
one, `split_xml` raises the assertion, and the run is aborted. -/
theorem C3_assertion_aborts_witness :
    (get_matches (exDocM.ffColls.headD []).enum "1").length ≠ 1 ∧
    split_xml exDocM.sigColls exDocM.ffColls [] "ffdev" 1 =
      Except.error Exn.assertionError ∧
    (run_exn (process_paths [("a2", SigFile.parsed exDocM)] "ffdev" 1 "T")).isSome = true := by
  have H := @C3_assertion_aborts [("a2", SigFile.parsed exDocM)] "a2" exDocM
    [{ id := "1", payload := 1 }] []
    [{ id := "9", puid := "p", internalSignatureID := NodeValue.str "2", payload := 2 }] []
    (by decide) rfl rfl rfl rfl (by decide) "ffdev" 1 "T"
  refine ⟨by decide, H.1 [] "ffdev" 1, ?_⟩
  obtain ⟨e, logs, heq⟩ := H.2
  rw [heq]
  rfl

/-! ## Claim C4 -/

/-- Claim C4 counterexample: in the `exDocA`, `exDocB`, `exDocC` run the
mismatch reset makes both output signature `ID`s equal `"1"`, so each
output FileFormat's back-reference matches two InternalSignatures, not
exactly one. -/
theorem C4_counterexample :
    run_backref_counts (process_paths [("x1", SigFile.parsed exDocA),
        ("x2", SigFile.parsed exDocB), ("x3", SigFile.parsed exDocC)] "ffdev" 1 "T") =
      some [2, 2] ∧ (2 : Nat) ≠ 1 := by
  decide

/-- In the identifier range `base, base+1, ...` rendered to strings,
exactly one element equals the rendering of `base + j` when `j < n`. -/
theorem count_toString_idsFrom (s : Int) (n j : Nat) (hj : j < n) :
    (((idsFrom s n).map toString).filter
      (fun x => x == toString (s + (j : Int)))).length = 1 := by
  rw [filter_length_over_map]
  have hcong : ∀ x ∈ idsFrom s n,
      (toString x == toString (s + (j : Int))) = (x == s + (j : Int)) := by
    intro x _
    by_cases hxe : x = s + (j : Int)
    · subst hxe
      rw [beq_self_eq_true, beq_self_eq_true]
    · rw [beq_eq_false_iff_ne.mpr hxe, beq_eq_false_iff_ne.mpr
        (fun hc => hxe (int_toString_inj hc))]
  rw [List.filter_congr hcong, length_filter_idsFrom, if_pos (by omega)]

/-- Claim C4 (amended): in every completed merge run with no
collection-size-mismatch file, every output FileFormat's rendered
back-reference matches the `ID` of exactly one output
InternalSignature, and any output InternalSignature whose `ID` equals
that back-reference has the FileFormat's own `ID`. -/
theorem C4_cross_reference {manifest : List (String × SigFile)} {pfx : String}
    {s : Int} {now : String} {logs : List LogEvent} {doc : MergedDoc}
    (hnm : ∀ pf ∈ manifest, is_mismatch_file pf.2 = false)
    (h : process_paths manifest pfx s now = RunOutcome.merged logs doc) :
    ∀ ff ∈ doc.fileFormats,
      (doc.internalSigs.filter
        (fun sg => sg.id == ff.internalSignatureID.render)).length = 1 ∧
      ∀ sg ∈ doc.internalSigs, sg.id = ff.internalSignatureID.render → sg.id = ff.id := by
  obtain ⟨st, hsig, hffs, hb, hc⟩ := merged_nm_inv hnm h
  intro ff hff
  rw [hffs] at hff
  obtain ⟨node, hnode, rfl⟩ := List.mem_map.mp hff
  have hnode2 : node ∈ st.sig_list.map Prod.snd := by
    rcases mem_foldl_dom_append _ [] hnode with h0 | h0
    · cases h0
    · exact h0
  obtain ⟨e, he, rfl⟩ := List.mem_map.mp hnode2
  obtain ⟨j, hj, hid, hbr⟩ := hc e he
  constructor
  · rw [hsig, hbr]
    show ((st.sig_list.map Prod.fst).filter
      (fun sg => sg.id == toString (s + (j : Int)))).length = 1
    rw [← filter_length_over_map InternalSig.id
      (fun x => x == toString (s + (j : Int))), List.map_map]
    have hmm : st.sig_list.map (InternalSig.id ∘ Prod.fst) =
        (idsFrom s st.sig_list.length).map toString := hb
    rw [hmm]
    exact count_toString_idsFrom s st.sig_list.length j hj
  · intro sg _ hsg2
    rw [hsg2, hbr, hid]
    rfl

/-- Claim C4 witness: the single-file run over `exDocC` with prefix
`custom` and start index 100 satisfies the hypotheses, and its one
output FileFormat's back-reference matches exactly the one output
InternalSignature, whose `ID` is the FileFormat's own. -/
theorem C4_cross_reference_witness :
    is_mismatch_file (SigFile.parsed exDocC) = false ∧
    (exOutX.internalSigs.filter
      (fun sg => sg.id ==
        (exOutX.fileFormats.getD 0 default).internalSignatureID.render)).length = 1 ∧
    (exOutX.internalSigs.getD 0 default).id = (exOutX.fileFormats.getD 0 default).id := by
  have H := C4_cross_reference (by decide)
    (by decide : process_paths [("x", SigFile.parsed exDocC)] "custom" 100 "T" =
      RunOutcome.merged [LogEvent.infoProcessed 1, LogEvent.infoItems 1] exOutX)
  have H1 := H (exOutX.fileFormats.getD 0 default) (by decide)
  exact ⟨by decide, H1.1, H1.2 (exOutX.internalSigs.getD 0 default) (by decide) (by decide)⟩

/-! ## Claim C5 -/

/-- Claim C5 (confirmed): in every completed merge run, every output
FileFormat's `PUID` equals the configured prefix, a slash, and the
record's own `ID`. -/
theorem C5_puid_shape {manifest : List (String × SigFile)} {pfx : String} {s : Int}
    {now : String} {logs : List LogEvent} {doc : MergedDoc}
    (h : process_paths manifest pfx s now = RunOutcome.merged logs doc) :
    ∀ ff ∈ doc.fileFormats, ff.puid = pfx ++ "/" ++ ff.id := by
  obtain ⟨st, hloop, -, hdoc, -⟩ := process_paths_merged_inv h
  have hpuid := process_loop_puid hloop (by intro e he; cases he)
  intro ff hff
  rw [hdoc, (create_new_sig_file_doc st.sig_list now).2.1] at hff
  obtain ⟨node, hnode, rfl⟩ := List.mem_map.mp hff
  have hnode2 : node ∈ st.sig_list.map Prod.snd := by
    rcases mem_foldl_dom_append _ [] hnode with h0 | h0
    · cases h0
    · exact h0
  obtain ⟨e, he, rfl⟩ := List.mem_map.mp hnode2
  exact hpuid e he

/-- Claim C5 witness: in the two-file run over `exDocA` and `exDocC`,
the first output FileFormat's `PUID` is `ffdev/` followed by its
`ID`. -/
theorem C5_puid_shape_witness :
    (exOutAC.fileFormats.getD 0 default).puid =
      "ffdev" ++ "/" ++ (exOutAC.fileFormats.getD 0 default).id := by
  have H := C5_puid_shape
    (by decide : process_paths [("a", SigFile.parsed exDocA), ("c", SigFile.parsed exDocC)]
      "ffdev" 1 "T" =
      RunOutcome.merged [LogEvent.infoProcessed 2, LogEvent.infoItems 2] exOutAC)
  exact H (exOutAC.fileFormats.getD 0 default) (by decide)

/-! ## Claim C6 -/

/-- Claim C6 counterexample: in `exDocAl` two InternalSignatures share
the `ID` "1", so both pairings select the same FileFormat node;
`appendChild` relocates the already-appended node, so the output holds
one FileFormat where the pairing order has two. -/
theorem C6_counterexample :
    run_ff_payloads (process_paths [("al", SigFile.parsed exDocAl)] "ffdev" 1 "T") =
      some [21] ∧
    ((sort_manifest [("al", SigFile.parsed exDocAl)]).flatMap
        (fun pf => file_pairings pf.2)).map (fun pr => pr.2.payload) = [21, 21] ∧
    ([21] : List Nat) ≠ [21, 21] := by
  decide

/-- Claim C6 (amended): in every completed merge run in which every
file's InternalSignature `ID`s are pairwise distinct, the manifest is
processed in ascending path order, and the output lists all
InternalSignatures in pairing order (ascending file order, source order
within a file) followed by all FileFormats in that same order, stated
on the untouched payloads. -/
theorem C6_order_preservation {manifest : List (String × SigFile)} {pfx : String}
    {s : Int} {now : String} {logs : List LogEvent} {doc : MergedDoc}
    (hd : ∀ pf ∈ manifest, has_distinct_sig_ids pf.2 = true)
    (h : process_paths manifest pfx s now = RunOutcome.merged logs doc) :
    (sort_manifest manifest).Pairwise (fun a b => path_le a.1 b.1 = true) ∧
    doc.internalSigs.map InternalSig.payload =
      ((sort_manifest manifest).flatMap (fun pf => file_pairings pf.2)).map
        (fun pr => pr.1.payload) ∧
    doc.fileFormats.map FileFormat.payload =
      ((sort_manifest manifest).flatMap (fun pf => file_pairings pf.2)).map
        (fun pr => pr.2.payload) := by
  obtain ⟨st, hloop, -, hdoc, -⟩ := process_paths_merged_inv h
  obtain ⟨hA, hB⟩ := process_loop_c6 hloop (sorted_all hd)
  dsimp only at hA
  rw [List.map_nil, List.nil_append] at hA
  have hNodup := hB ⟨List.nodup_nil, by intro e he; exact absurd he (List.not_mem_nil e)⟩
  refine ⟨sort_manifest_sorted manifest, ?_, ?_⟩
  · rw [hdoc, (create_new_sig_file_doc st.sig_list now).1, List.map_map]
    have h1 := congrArg (List.map Prod.fst) hA
    rw [List.map_map, List.map_map] at h1
    exact h1
  · rw [hdoc, (create_new_sig_file_doc st.sig_list now).2.1]
    have hkeys : ((st.sig_list.map Prod.snd).map FFNode.key).Nodup := by
      rw [List.map_map]
      exact hNodup.1
    have hacc : ∀ n ∈ st.sig_list.map Prod.snd, ∀ m ∈ ([] : List FFNode),
        m.key ≠ n.key := by
      intro n _ m hm
      exact absurd hm (List.not_mem_nil m)
    rw [foldl_dom_append_of_distinct _ [] hacc hkeys, List.nil_append,
      List.map_map, List.map_map]
    have h2 := congrArg (List.map Prod.snd) hA
    rw [List.map_map, List.map_map] at h2
    exact h2

/-- Claim C6 witness: the run over `exDocA` and `exDocC` (distinct
signature `ID`s in each) lists both payload sequences in sorted-path
pairing order. -/
theorem C6_order_preservation_witness :
    has_distinct_sig_ids (SigFile.parsed exDocA) = true ∧
    exOutAC.internalSigs.map InternalSig.payload =
      ((sort_manifest [("a", SigFile.parsed exDocA), ("c", SigFile.parsed exDocC)]).flatMap
        (fun pf => file_pairings pf.2)).map (fun pr => pr.1.payload) ∧
    exOutAC.fileFormats.map FileFormat.payload =
      ((sort_manifest [("a", SigFile.parsed exDocA), ("c", SigFile.parsed exDocC)]).flatMap
        (fun pf => file_pairings pf.2)).map (fun pr => pr.2.payload) := by
  have H := C6_order_preservation (by decide)
    (by decide : process_paths [("a", SigFile.parsed exDocA), ("c", SigFile.parsed exDocC)]
      "ffdev" 1 "T" =
      RunOutcome.merged [LogEvent.infoProcessed 2, LogEvent.infoItems 2] exOutAC)
  exact ⟨by decide, H.2.1, H.2.2⟩

/-! ## Claim C7 -/

/-- Claim C7 (confirmed): the merge is a deterministic function of the
manifest, prefix and start index — two runs differing only in the clock
reading produce identical outcomes (logs and document) once the
`DateCreated` timestamp is blanked. -/
theorem C7_determinism (manifest : List (String × SigFile)) (pfx : String) (s : Int)
    (t1 t2 : String) :
    erase_date (process_paths manifest pfx s t1) =
      erase_date (process_paths manifest pfx s t2) :=
  process_paths_det manifest pfx s t1 t2

/-! ## Claim C8 -/

/-- Claim C8 counterexample: a well-formed non-signature file whose
first child node is a comment, processing instruction or doctype rather
than the root element is not skipped silently — `doc.firstChild.tagName`
raises `AttributeError`, which nothing catches, so the run aborts with
no log entry at all (and later files are never processed). -/
theorem C8_counterexample :
    run_exn (process_paths [("p", SigFile.preamble), ("q", SigFile.parsed exDocA)]
      "ffdev" 1 "T") = some Exn.attributeError ∧
    run_logs (process_paths [("p", SigFile.preamble), ("q", SigFile.parsed exDocA)]
      "ffdev" 1 "T") = [] := by
  decide

/-- Claim C8 (amended): a well-formed file whose root element is the
document's first child and whose tag is not `FFSignatureFile` is
skipped silently — `process_one` returns the state unchanged (no
pairings, no identifiers, no log entry), and the loop over any manifest
containing it equals the loop with the file removed.  Without the
first-child restriction the claim is false: see `C8_counterexample`. -/
theorem C8_silent_skip {doc : XmlDoc} (hroot : ¬ doc.rootTag = "FFSignatureFile")
    (pfx : String) (s : Int) (path : String) (st : LoopState)
    (l1 l2 : List (String × SigFile)) :
    process_one pfx s path (SigFile.parsed doc) st = Except.ok st ∧
    process_loop pfx s (l1 ++ (path, SigFile.parsed doc) :: l2) st =
      process_loop pfx s (l1 ++ l2) st := by
  have hloop : ∀ st' : LoopState,
      process_loop pfx s (l1 ++ (path, SigFile.parsed doc) :: l2) st' =
        process_loop pfx s (l1 ++ l2) st' := by
    induction l1 with
    | nil =>
      intro st'
      rw [List.nil_append, List.nil_append, process_loop_cons,
        process_one_skip hroot]
    | cons entry rest ih =>
      intro st'
      obtain ⟨p1, f1⟩ := entry
      rw [List.cons_append, List.cons_append, process_loop_cons, process_loop_cons]
      cases process_one pfx s p1 f1 st' with
      | error e => rfl
      | ok st2 => exact ih st2
  exact ⟨process_one_skip hroot pfx s path st, hloop st⟩

/-- Claim C8 witness: `exDocN` (root tag `SomethingElse`) leaves the
state untouched, and a loop over `exDocA` then `exDocN` equals the loop
over `exDocA` alone. -/
theorem C8_silent_skip_witness :
    ¬ exDocN.rootTag = "FFSignatureFile" ∧
    process_one "ffdev" 1 "n" (SigFile.parsed exDocN) (LoopState.mk [] [] 0 []) =
      Except.ok (LoopState.mk [] [] 0 []) ∧
    process_loop "ffdev" 1 [("a", SigFile.parsed exDocA), ("n", SigFile.parsed exDocN)]
        (LoopState.mk [] [] 0 []) =
      process_loop "ffdev" 1 [("a", SigFile.parsed exDocA)] (LoopState.mk [] [] 0 []) := by
  have H := @C8_silent_skip exDocN (by decide) "ffdev" 1 "n" (LoopState.mk [] [] 0 [])
    [("a", SigFile.parsed exDocA)] []
  exact ⟨by decide, H.1, H.2⟩

/-! ## Claim C9 -/

/-- Claim C9 (confirmed): if a manifest file parses to a document with
the signature root tag but one of the two collection lists is empty,
`split_xml`'s first extraction step indexes an empty list — it raises
`IndexError` whatever the surrounding state, and the run aborts instead
of skipping the file. -/
theorem C9_index_error {manifest : List (String × SigFile)} {p : String} {doc : XmlDoc}
    (hmem : (p, SigFile.parsed doc) ∈ manifest)
    (hroot : doc.rootTag = "FFSignatureFile")
    (hempty : doc.sigColls = [] ∨ doc.ffColls = [])
    (pfx : String) (s : Int) (now : String) :
    (∀ ids pfx2 s2, split_xml doc.sigColls doc.ffColls ids pfx2 s2 =
        Except.error Exn.indexError) ∧
    ∃ e logs, process_paths manifest pfx s now = RunOutcome.aborted e logs := by
  have hsplit : ∀ ids pfx2 s2, split_xml doc.sigColls doc.ffColls ids pfx2 s2 =
      Except.error Exn.indexError := by
    intro ids pfx2 s2
    rcases hempty with he | he
    · rw [he, split_xml_nil_left]
    · rw [he]
      cases hsc : doc.sigColls with
      | nil => rw [split_xml_nil_left]
      | cons a t => rw [split_xml_nil_right]
  exact ⟨hsplit, process_paths_aborts hmem ⟨doc, rfl, hroot, fun ids pfx2 s2 =>
    ⟨Exn.indexError, hsplit ids pfx2 s2⟩⟩ pfx s now⟩

/-- Claim C9 witness: `exDocE` has the right root tag and no collection
elements; `split_xml` raises `IndexError` and the run over it aborts. -/
theorem C9_index_error_witness :
    exDocE.sigColls = ([] : List (List InternalSig)) ∧
    split_xml exDocE.sigColls exDocE.ffColls [] "ffdev" 1 =
      Except.error Exn.indexError ∧
    (run_exn (process_paths [("e", SigFile.parsed exDocE)] "ffdev" 1 "T")).isSome = true := by
  have H := @C9_index_error [("e", SigFile.parsed exDocE)] "e" exDocE
    (by decide) rfl (Or.inl rfl) "ffdev" 1 "T"
  refine ⟨rfl, H.1 [] "ffdev" 1, ?_⟩
  obtain ⟨e, logs, heq⟩ := H.2
  rw [heq]
  rfl

/-! ## Claim C10 -/

/-- Claim C10 (confirmed): a signature document whose two collections
are both present and empty passes the size check (0 = 0) and pairs
nothing; `split_xml` returns the empty pairing list, and the
orchestrator logs the error-level "cannot process" diagnostic and skips
the file, leaving the rest of the state unchanged. -/
theorem C10_empty_collections {doc : XmlDoc}
    (hroot : doc.rootTag = "FFSignatureFile")
    {t1 : List (List InternalSig)} {t2 : List (List FileFormat)}
    (hc1 : doc.sigColls = [] :: t1) (hc2 : doc.ffColls = [] :: t2)
    (pfx : String) (s : Int) (path : String) (st : LoopState) :
    split_xml doc.sigColls doc.ffColls st.identifiers pfx s =
      Except.ok (some [], [], st.identifiers) ∧
    process_one pfx s path (SigFile.parsed doc) st =
      Except.ok { st with
        logs := st.logs ++ [LogEvent.errorCannotProcess path] } := by
  have hsplit : split_xml doc.sigColls doc.ffColls st.identifiers pfx s =
      Except.ok (some [], [], st.identifiers) := by
    rw [hc1, hc2, split_xml_cons, if_neg (by simp)]
    rfl
  refine ⟨hsplit, ?_⟩
  rw [process_one_parsed hroot, hsplit]
  rfl

/-- Claim C10 witness: `exDocZ` (both collections present and empty) is
rejected with the "cannot process" log entry from the empty initial
state. -/
theorem C10_empty_collections_witness :
    split_xml exDocZ.sigColls exDocZ.ffColls ([] : List Int) "ffdev" 1 =
      Except.ok (some [], [], []) ∧
    process_one "ffdev" 1 "z" (SigFile.parsed exDocZ) (LoopState.mk [] [] 0 []) =
      Except.ok (LoopState.mk [] [] 0 [LogEvent.errorCannotProcess "z"]) := by
  have H := @C10_empty_collections exDocZ rfl [] [] rfl rfl "ffdev" 1 "z"
    (LoopState.mk [] [] 0 [])
  exact ⟨H.1, H.2⟩
